import Mathlib

/-!
# Verification of `indra_db_lite`

A shallow embedding in Lean 4 of the core logic of the `indra_db_lite`
python repository, together with theorems settling the specification
claims about it.  The embedding covers:

* the MeSH identifier codec (`mesh_id_to_mesh_num` / `mesh_num_to_mesh_id`
  from `indra_db_lite/api.py`),
* the paragraph filter (`filter_paragraphs`) and the `TextContent` value
  object with its one-shot `process` transformation,
* the chunked batch-lookup layer (`get_text_ref_ids_for_pmids` and the row
  collection phase of `get_paragraphs_for_text_ref_ids`),
* the best-content selection and deduplication pipeline of
  `indra_db_lite/tables/best_content.py` (the SQL steps are embedded as
  list transformations over an explicit table of rows),
* the precondition checks of `construction/tables/agent_texts.py` and
  `construction/assemble.py`.

Machine-level conventions: Python `int` is modelled by `Int`/`Nat`;
Python strings by `String` (with `List Char` for character-level work);
a fallible computation returns `Except PyError` or `Option`.
-/

namespace IndraDbLite

/-! ## Decimal digit utilities (modelling Python `str`/`int` conversions) -/

/-- The character for a single decimal digit, `digitChar 3 = '3'`. -/
def digitChar (d : Nat) : Char := Char.ofNat (48 + d)

/-- The numeric value of a decimal digit character, `digitVal '3' = 3`. -/
def digitVal (c : Char) : Nat := c.toNat - 48

/-- Digit-accumulating loop for `natStr`; the fuel argument only forces
termination and is always at least the number being converted. -/
def natStrAux : Nat → Nat → List Char → List Char
  | 0, _, acc => acc
  | fuel + 1, n, acc =>
    if n = 0 then acc else natStrAux fuel (n / 10) (digitChar (n % 10) :: acc)

/-- The decimal representation of a natural number, as Python `str` produces
it: `natStr 0 = ['0']`, no leading zeros otherwise. -/
def natStr (n : Nat) : List Char :=
  if n = 0 then ['0'] else natStrAux n n []

/-- Python `str(i)` for an integer. -/
def intStr (i : Int) : List Char :=
  if i < 0 then '-' :: natStr i.natAbs else natStr i.toNat

/-- The numeric value of a list of decimal digit characters,
`digitsVal ['0','4','2'] = 42`. -/
def digitsVal (s : List Char) : Nat :=
  s.foldl (fun a c => 10 * a + digitVal c) 0

/-- Left-pad a list of characters with `'0'` up to width `w`. -/
def padZeros (w : Nat) (s : List Char) : List Char :=
  List.replicate (w - s.length) '0' ++ s

/-- Python `str.zfill`: pad with zeros on the left to the given total width,
keeping a leading sign character in front of the inserted zeros. -/
def zfill (w : Nat) (s : List Char) : List Char :=
  match s with
  | [] => List.replicate w '0'
  | c :: rest =>
    if c = '+' ∨ c = '-' then c :: (List.replicate (w - (rest.length + 1)) '0' ++ rest)
    else List.replicate (w - (rest.length + 1)) '0' ++ (c :: rest)

/-- Decimal digit test, `'0' ≤ c ≤ '9'` (the ASCII digits accepted by the
CPython base-10 integer parser). -/
def isDigitC (c : Char) : Bool := 48 ≤ c.toNat && c.toNat ≤ 57

/-- Python whitespace characters stripped by `int()` (ASCII fragment; the
source never passes non-ASCII identifiers). -/
def isPySpace (c : Char) : Bool :=
  c = ' ' || c = '\t' || c = '\n' || c = '\r' || c = '\x0b' || c = '\x0c'

/-- Helper for `pyIntParse`: digits with single underscores allowed between
digits, accumulating the value. -/
def parseUDigitsAux : Nat → List Char → Option Nat
  | acc, [] => some acc
  | acc, c :: rest =>
    if isDigitC c then parseUDigitsAux (10 * acc + digitVal c) rest
    else if c = '_' then
      match rest with
      | [] => none
      | d :: rest2 =>
        if isDigitC d then parseUDigitsAux (10 * acc + digitVal d) rest2 else none
    else none

/-- Digit sequence as accepted by CPython `int(s)` after sign handling:
nonempty, underscores only between digits. -/
def parseUDigits : List Char → Option Nat
  | [] => none
  | c :: rest => if isDigitC c then parseUDigitsAux (digitVal c) rest else none

/-- CPython `int(s)` for base 10: strip surrounding whitespace, optional
sign, then digits with single underscores between digits.  Returns `none`
where Python raises `ValueError`.  (Unicode digits and unicode whitespace
are not modelled; all identifiers in this repository are ASCII.) -/
def pyIntParse (s : List Char) : Option Int :=
  let t := ((s.dropWhile isPySpace).reverse.dropWhile isPySpace).reverse
  match t with
  | [] => none
  | c :: rest =>
    if c = '+' then (parseUDigits rest).map Int.ofNat
    else if c = '-' then (parseUDigits rest).map (fun n => -(Int.ofNat n))
    else (parseUDigits (c :: rest)).map Int.ofNat

/-! ## MeSH identifier codec (`api.py`) -/

/-- Python exceptions that `mesh_id_to_mesh_num` can raise. -/
inductive PyError
  | indexError
  | valueError
deriving DecidableEq, Repr

/-- The function `mesh_id_to_mesh_num` from `api.py`:

```
if mesh_id[0] not in ['C', 'D']:
    return None
is_concept = 1 if mesh_id[0] == 'C' else 0
return (int(mesh_id[1:]), is_concept)
```

`mesh_id[0]` on the empty string raises `IndexError`; `int` on a
non-integer string raises `ValueError`; an unsupported leading character
returns `None` (modelled as `.ok none`).
-/
def mesh_id_to_mesh_num (mesh_id : String) : Except PyError (Option (Int × Int)) :=
  match mesh_id.data with
  | [] => .error .indexError
  | c :: rest =>
    if c ≠ 'C' ∧ c ≠ 'D' then .ok none
    else
      match pyIntParse rest with
      | none => .error .valueError
      | some n => .ok (some (n, if c = 'C' then 1 else 0))

/-- The function `mesh_num_to_mesh_id` from `api.py`:

```
prefix = 'C' if is_concept else 'D'
if prefix == 'D':
    if mesh_num < 66332: mesh_num = str(mesh_num).zfill(6)
    else: mesh_num = str(mesh_num).zfill(9)
elif prefix == 'C':
    if mesh_num < 588418: mesh_num = str(mesh_num).zfill(6)
    else: mesh_num = str(mesh_num).zfill(9)
return prefix + mesh_num
```
-/
def mesh_num_to_mesh_id (mesh_num : Int) (is_concept : Int) : String :=
  let pfx : Char := if is_concept ≠ 0 then 'C' else 'D'
  let padded : List Char :=
    if pfx = 'D' then
      if mesh_num < 66332 then zfill 6 (intStr mesh_num) else zfill 9 (intStr mesh_num)
    else
      if mesh_num < 588418 then zfill 6 (intStr mesh_num) else zfill 9 (intStr mesh_num)
  ⟨pfx :: padded⟩

/-- The per-prefix padding threshold of the decoder. -/
def meshThreshold (c : Char) : Nat := if c = 'C' then 588418 else 66332

/-! ## Lemmas about the digit utilities -/

/-! ## Paragraph filtering (`api.py`, `filter_paragraphs`)

The source builds the regular expression
`'|'.join(r'(^|[^\w])%s([^\w]|$)' % re.escape(shortform) for shortform in contains)`
and keeps the paragraphs on which `re.search` succeeds.  Because every
entry is escaped, the pattern for one entry matches exactly when the entry
occurs literally at some index whose left neighbour is absent or a
non-word character and whose right neighbour is absent or a non-word
character; `tokenMatch` below is that search, index by index. -/

/-- Python regex word-character test `\w` (ASCII fragment: letters, digits,
underscore; the repository only filters on ASCII gene symbols). -/
def isWordChar (c : Char) : Bool := c.isAlphanum || c = '_'

/-- Whether index `i` of `p` holds a non-word character (the `[^\w]` atom:
it must consume an existing character). -/
def nonWordAt (p : List Char) (i : Nat) : Bool :=
  match p[i]? with
  | some c => !isWordChar c
  | none => false

/-- Whether the pattern piece `(^|[^\w])e([^\w]|$)` matches with the literal
`e` starting at index `i` of `p`. -/
def matchTokenAt (e p : List Char) (i : Nat) : Bool :=
  decide ((p.drop i).take e.length = e) &&
    (i == 0 || nonWordAt p (i - 1)) &&
    (i + e.length == p.length || nonWordAt p (i + e.length))

/-- Search (`re.search`) of the pattern piece for one entry of `contains`. -/
def tokenMatch (e p : List Char) : Bool :=
  (List.range (p.length + 1)).any (matchTokenAt e p)

/-- The specification's matching relation: the entry occurs in the
paragraph bounded on each side by a non-word character or a string
boundary. -/
def OccursBounded (e p : List Char) : Prop :=
  ∃ pre post, p = pre ++ e ++ post ∧
    (∀ c, pre.getLast? = some c → isWordChar c = false) ∧
    (∀ c, post.head? = some c → isWordChar c = false)

/-- The `contains` argument of `filter_paragraphs`: `None`, a single
string, or a list of strings. -/
inductive PyStrs
  | none
  | str (s : String)
  | list (ss : List String)
deriving DecidableEq, Repr

/-- The function `filter_paragraphs` from `api.py`: keep the paragraphs matched by the
alternation pattern over the entries (everything when `contains` is `None`
or empty, since the joined pattern is then `''` and `re.search('', p)`
always succeeds), join them with newlines and append a final newline. -/
def filter_paragraphs (paragraphs : List String) (contains : PyStrs) : String :=
  let entries : Option (List String) :=
    match contains with
    | .none => Option.none
    | .str s => some [s]
    | .list ss => some ss
  let kept : List String :=
    match entries with
    | Option.none => paragraphs
    | some es =>
      if es.isEmpty then paragraphs
      else paragraphs.filter fun p => es.any fun e => tokenMatch e.data p.data
  String.intercalate "\n" kept ++ "\n"

/-! ## The `TextContent` value object (`api.py`) -/

/-- One piece of held content: a paragraph list before processing, a plain
string afterwards (the attribute type is `Union[List[str], str]`). -/
inductive PyContent
  | paras (ps : List String)
  | text (s : String)
deriving DecidableEq, Repr

/-- Python `len` of a held value (strings count characters, lists count
elements). -/
def pyContentLen : PyContent → Nat
  | .paras ps => ps.length
  | .text s => s.length

/-- Iterating a held value the way `filter_paragraphs` does: a list yields
its paragraphs; a string yields its characters as one-character strings
(how Python iterates a `str`; unreachable after the `processed` guard but
modelled faithfully). -/
def pyContentItems : PyContent → List String
  | .paras ps => ps
  | .text s => s.data.map (fun c => String.mk [c])

/-- The `TextContent` value object: three insertion-ordered dictionaries
from `text_ref_id` to content, plus the one-shot `processed` flag.  The
dictionaries are modelled as association lists in insertion order. -/
structure TextContent where
  fulltexts : List (Nat × PyContent)
  abstracts : List (Nat × PyContent)
  titles : List (Nat × PyContent)
  processed : Bool
deriving DecidableEq, Repr

/-- One bucket of `TextContent.process`: filter and join each document's
paragraphs, then keep only the documents whose joined text has length
greater than one. -/
def processBucket (contains : PyStrs) (b : List (Nat × PyContent)) :
    List (Nat × PyContent) :=
  (b.map fun kv =>
      (kv.1, PyContent.text (filter_paragraphs (pyContentItems kv.2) contains))).filter
    fun kv => pyContentLen kv.2 > 1

/-- The method `TextContent.process` from `api.py`: a no-op when already processed;
otherwise filter and join each requested bucket, clear the buckets of
text types that were not requested, and set the `processed` flag. -/
def TextContent.process (tc : TextContent) (contains : PyStrs)
    (text_types : Option (List String)) : TextContent :=
  if tc.processed then tc
  else
    let tts := text_types.getD ["fulltext", "abstract", "title"]
    { fulltexts := if "fulltext" ∈ tts then processBucket contains tc.fulltexts else []
      abstracts := if "abstract" ∈ tts then processBucket contains tc.abstracts else []
      titles := if "title" ∈ tts then processBucket contains tc.titles else []
      processed := true }

/-! ## Chunked batch lookups (`api.py`)

`get_text_ref_ids_for_pmids` and `get_paragraphs_for_text_ref_ids` walk
the input ids in slices of `batch_size = 100000`
(`for idx in range(0, num, batch_size): ids[idx:idx + batch_size]`),
issue one query per slice, and merge the per-slice results with
`dict.update` (mapping results) or `list.extend` (row results).  The
database tables are modelled as explicit row lists; a query is the
corresponding filter of the table.  A Python dict is observed through
lookup (Python `dict` equality ignores insertion order), so the merged
dict is modelled as the lookup function it computes. -/

/-- Python's slicing loop as a recursive chunking function.  The `n = 0`
guard only serves termination; the source always chunks by `100000`. -/
def chunksOf (n : Nat) (l : List α) : List (List α) :=
  if l.isEmpty || n == 0 then [] else l.take n :: chunksOf n (l.drop n)
termination_by l.length
decreasing_by
  rename_i h
  simp only [Bool.or_eq_true, List.isEmpty_iff, beq_iff_eq, not_or] at h
  have h1 : 0 < l.length := List.length_pos.mpr h.1
  simp only [List.length_drop]
  omega

/-- Python `result.update(pairs)`: each pair overwrites, in order. -/
def dictUpdate (d : Int → Option Int) (kvs : List (Int × Int)) : Int → Option Int :=
  kvs.foldl (fun f kv => fun k => if k = kv.1 then some kv.2 else f k) d

/-- A row of the `pmid_text_refs` table; `pmid` is nullable. -/
structure PmidTextRefRow where
  text_ref_id : Int
  pmid : Option Int
deriving DecidableEq, Repr

/-- The helper `_get_text_ref_ids_for_pmids_helper`: `SELECT pmid, text_ref_id FROM
pmid_text_refs WHERE pmid IN (...)`; a NULL `pmid` never matches an IN
list. -/
def text_ref_ids_for_pmids_helper (table : List PmidTextRefRow)
    (pmids : List Int) : List (Int × Int) :=
  table.filterMap fun r =>
    match r.pmid with
    | some p => if p ∈ pmids then some (p, r.text_ref_id) else none
    | none => none

/-- The function `get_text_ref_ids_for_pmids`: chunk the input pmids by 100000, one
query per chunk, merge with `dict.update` starting from `{}`. -/
def get_text_ref_ids_for_pmids (table : List PmidTextRefRow)
    (pmids : List Int) : Int → Option Int :=
  (chunksOf 100000 pmids).foldl
    (fun result chunk => dictUpdate result (text_ref_ids_for_pmids_helper table chunk))
    (fun _ => none)

/-- A row of the `best_content` table as fetched by the paragraphs
helper. -/
structure BestContentRow where
  text_ref_id : Int
  text_type : String
  content : String
deriving DecidableEq, Repr

/-- The helper `_get_paragraphs_for_text_ref_ids_helper`: `SELECT text_ref_id,
text_type, content FROM best_content WHERE text_ref_id IN (...)`. -/
def paragraphs_for_text_ref_ids_helper (table : List BestContentRow)
    (text_ref_ids : List Int) : List (Int × String × String) :=
  table.filterMap fun r =>
    if r.text_ref_id ∈ text_ref_ids then some (r.text_ref_id, r.text_type, r.content)
    else none

/-- The row-collection phase of `get_paragraphs_for_text_ref_ids`: chunk
the ids by 100000 and extend the row list with each chunk's query
results. -/
def get_paragraphs_for_text_ref_ids_rows (table : List BestContentRow)
    (text_ref_ids : List Int) : List (Int × String × String) :=
  (chunksOf 100000 text_ref_ids).foldl
    (fun rows chunk => rows ++ paragraphs_for_text_ref_ids_helper table chunk) []

/-! ## Best-content selection pipeline (`tables/best_content.py`)

The build pipeline operates on the staging sqlite table `text_content`
(`id` PRIMARY KEY, `text_ref_id`, `text_type`, `source`, `content`) with
a fixed sequence of SQL statements (see `__main__` of the module); the
table is embedded as a list of rows in table order and each statement as
a list transformation.  The grouped subqueries of the two dedup steps use
SQLite's bare-column-with-MIN semantics: `SELECT id, MIN(rank) FROM
text_content GROUP BY text_ref_id` yields, for each group, the id of the
first row in table order whose rank attains the group minimum (SQLite's
min aggregate replaces the bare columns only on a strictly smaller
value). -/

/-- A row of the staging `text_content` table. -/
structure TCRow where
  id : Nat
  text_ref_id : Nat
  text_type : String
  source : String
  content : String
deriving DecidableEq, Repr

/-- The CASE expression of `delete_duplicate_fulltexts`. -/
def fulltextSourceRank (s : String) : Nat :=
  if s = "pmc_oa" then 0
  else if s = "manuscripts" then 1
  else if s = "cord19_pmc_xml" then 2
  else if s = "elsevier" then 3
  else if s = "cord19_pdf" then 4
  else 5

/-- The CASE expression of `delete_duplicate_abstracts`. -/
def abstractSourceRank (s : String) : Nat :=
  if s = "pubmed" then 0 else if s = "cord19_abstract" then 1 else 2

/-- The subquery `SELECT text_ref_id FROM text_content WHERE text_type =
'fulltext'`, as a membership test. -/
def hasFulltext (t : List TCRow) (trid : Nat) : Bool :=
  t.any fun r => r.text_ref_id == trid && r.text_type == "fulltext"

/-- The step `delete_content_for_which_fulltext_exists`: delete abstracts and
titles of documents that have a fulltext row. -/
def delete_content_for_which_fulltext_exists (t : List TCRow) : List TCRow :=
  t.filter fun r =>
    !(hasFulltext t r.text_ref_id &&
      (r.text_type == "abstract" || r.text_type == "title"))

/-- The rows of one document, in table order. -/
def groupOf (t : List TCRow) (trid : Nat) : List TCRow :=
  t.filter fun r => r.text_ref_id == trid

/-- The group minimum of a CASE rank. -/
def minRank (rank : String → Nat) (g : List TCRow) : Nat :=
  match g.map fun r => rank r.source with
  | [] => 0
  | x :: xs => xs.foldl min x

/-- The id that the grouped subquery keeps for one document: the id of the
first row in table order attaining the group's minimal rank. -/
def repId (rank : String → Nat) (t : List TCRow) (trid : Nat) : Option Nat :=
  ((groupOf t trid).find? fun r =>
      rank r.source == minRank rank (groupOf t trid)).map
    fun r => r.id

/-- The step `delete_duplicate_fulltexts`: delete the fulltext rows whose id is not
one of the per-document representatives. -/
def delete_duplicate_fulltexts (t : List TCRow) : List TCRow :=
  t.filter fun r =>
    !(r.text_type == "fulltext" &&
      !(repId fulltextSourceRank t r.text_ref_id == some r.id))

/-- The step `delete_duplicate_abstracts`. -/
def delete_duplicate_abstracts (t : List TCRow) : List TCRow :=
  t.filter fun r =>
    !(r.text_type == "abstract" &&
      !(repId abstractSourceRank t r.text_ref_id == some r.id))

/-- A row of the temporary `abstracts` join table created by
`combine_abstracts_with_titles` (columns `tcid1, tcid2, text_ref_id,
text_type, source, title, abstract`). -/
structure AbsRow where
  tcid1 : Nat
  tcid2 : Nat
  text_ref_id : Nat
  text_type : String
  source : String
  title : String
  abstract : String
deriving DecidableEq, Repr

/-- The step `combine_abstracts_with_titles`: the inner join of abstracts (`tc1`)
with titles (`tc2`) of the same document. -/
def combine_abstracts_with_titles (t : List TCRow) : List AbsRow :=
  t.flatMap fun tc1 =>
    (t.filter fun tc2 =>
        tc1.text_type == "abstract" && tc2.text_type == "title" &&
          tc1.text_ref_id == tc2.text_ref_id).map
      fun tc2 =>
        ⟨tc1.id, tc2.id, tc1.text_ref_id, tc1.text_type, tc1.source,
          tc2.content, tc1.content⟩

/-- The step `delete_abstracts`. -/
def delete_abstracts (t : List TCRow) : List TCRow :=
  t.filter fun r => !(r.text_type == "abstract")

/-- The step `delete_titles_for_which_abstracts_exist`. -/
def delete_titles_for_which_abstracts_exist (t : List TCRow)
    (ab : List AbsRow) : List TCRow :=
  t.filter fun r =>
    !((ab.any fun a => a.text_ref_id == r.text_ref_id) && r.text_type == "title")

/-- A row of the final `best_content` table as produced by the generators;
the autoincrement primary key is omitted and `content` holds the decoded
JSON value, an array of strings. -/
structure BCRow where
  text_ref_id : Nat
  text_content_id1 : Nat
  text_content_id2 : Option Nat
  text_type : String
  content : List String
deriving DecidableEq, Repr

/-- The generator `abstracts_generator`: every joined row becomes a best-content row
with content `[title, abstract]`; the parameter `unpackHex` stands for the
external decoding `unpack(bytes.fromhex(.))`. -/
def abstracts_rows (unpackHex : String → String) (ab : List AbsRow) : List BCRow :=
  ab.map fun a =>
    ⟨a.text_ref_id, a.tcid1, some a.tcid2, a.text_type,
      [unpackHex a.title, unpackHex a.abstract]⟩

/-- The generator `fulltexts_and_titles_generator`; the parameter `extractParagraphs`
stands for the external `universal_extract_paragraphs`. -/
def fulltexts_and_titles_rows (unpackHex : String → String)
    (extractParagraphs : String → List String) (t : List TCRow) : List BCRow :=
  t.map fun r =>
    ⟨r.text_ref_id, r.id, none, r.text_type, extractParagraphs (unpackHex r.content)⟩

/-- The whole selection pipeline, in the statement order of `__main__`:
delete lesser content where fulltext exists, dedup fulltexts, dedup
abstracts, build the abstracts join table, delete abstracts, delete the
joined titles, then load the joined abstracts followed by the remaining
fulltexts and titles. -/
def best_content_pipeline (unpackHex : String → String)
    (extractParagraphs : String → List String) (t : List TCRow) : List BCRow :=
  let t1 := delete_content_for_which_fulltext_exists t
  let t2 := delete_duplicate_fulltexts t1
  let t3 := delete_duplicate_abstracts t2
  let ab := combine_abstracts_with_titles t3
  let t4 := delete_abstracts t3
  let t5 := delete_titles_for_which_abstracts_exist t4 ab
  abstracts_rows unpackHex ab ++ fulltexts_and_titles_rows unpackHex extractParagraphs t5

/-! ### Membership characterizations of the pipeline steps -/

/-! ### The grouped MIN subquery -/

/-! ### Group stability under the filtering steps -/

/-! ### Step subset and survival lemmas -/

/-! ## Build-step precondition checks (`construction/tables/agent_texts.py`
and `construction/assemble.py`)

Only the precondition-check control flow is modelled, that is, what each
function does with its `assert` on the required table names before the
subsequent SQL runs.  `create_agent_texts_table` wraps its assert in
`try: ... except AssertionError: logger.exception(...)`, so a missing
table is logged and execution proceeds past the check; `move_table` has
two bare asserts (source database, then destination database) and halts
with `AssertionError`. -/

/-- Outcome of a precondition check: execution proceeds past the check
(having logged an assertion failure or not), or the step halts with
`AssertionError`. -/
inductive CheckOutcome
  | proceeds (loggedAssertionError : Bool)
  | assertionError
deriving DecidableEq, Repr

/-- The tables required by the agent-texts join step. -/
def agentTextsNeededTables : List String :=
  ["agent_stmts", "stmt_readings", "reading_content", "content_text_refs"]

/-- The precondition check of `create_agent_texts_table`: the assertion
`needed_tables <= set(all_tables)` is evaluated inside `try/except
AssertionError`, so its failure is logged and swallowed. -/
def create_agent_texts_table_check (all_tables : List String) : CheckOutcome :=
  .proceeds (!(agentTextsNeededTables.all fun nm => all_tables.contains nm))

/-- The precondition checks of `move_table`: bare
`assert table_name in get_sqlite_tables(from_db_path)` followed by the
same assert for the destination database. -/
def move_table_check (from_tables to_tables : List String)
    (table_name : String) : CheckOutcome :=
  if from_tables.contains table_name then
    if to_tables.contains table_name then .proceeds false
    else .assertionError
  else .assertionError

/-! ## Theorems and examples -/

example : mesh_num_to_mesh_id 66331 0 = "D066331" := by decide

example : mesh_num_to_mesh_id 66332 0 = "D000066332" := by decide

theorem digitChar_isDigitC {d : Nat} (h : d < 10) : isDigitC (digitChar d) = true := by
  interval_cases d <;> decide

theorem digitVal_digitChar {d : Nat} (h : d < 10) : digitVal (digitChar d) = d := by
  interval_cases d <;> decide

theorem isDigitC_bounds {c : Char} (h : isDigitC c = true) :
    48 ≤ c.toNat ∧ c.toNat ≤ 57 := by
  simpa [isDigitC] using h

theorem digitChar_digitVal {c : Char} (h : isDigitC c = true) : digitChar (digitVal c) = c := by
  obtain ⟨h1, _⟩ := isDigitC_bounds h
  have heq : 48 + (c.toNat - 48) = c.toNat := by omega
  rw [digitChar, digitVal, heq, Char.ofNat_toNat]

theorem digitVal_lt_ten {c : Char} (h : isDigitC c = true) : digitVal c < 10 := by
  obtain ⟨h1, h2⟩ := isDigitC_bounds h
  simp only [digitVal]
  omega

theorem natStrAux_eq :
    ∀ (fuel n : Nat), n ≤ fuel → ∀ acc,
      natStrAux fuel n acc = ((Nat.digits 10 n).map digitChar).reverse ++ acc := by
  intro fuel
  induction fuel with
  | zero =>
    intro n hn acc
    interval_cases n
    simp [natStrAux]
  | succ fuel ih =>
    intro n hn acc
    by_cases h0 : n = 0
    · subst h0; simp [natStrAux]
    · have hdiv : n / 10 ≤ fuel := by
        have := Nat.div_lt_self (Nat.pos_of_ne_zero h0) (by norm_num : 1 < 10)
        omega
      rw [natStrAux, if_neg h0, ih (n / 10) hdiv,
        Nat.digits_def' (by norm_num : 1 < 10) (Nat.pos_of_ne_zero h0)]
      simp

theorem natStr_eq (n : Nat) :
    natStr n = if n = 0 then ['0'] else ((Nat.digits 10 n).map digitChar).reverse := by
  unfold natStr
  by_cases h : n = 0
  · simp [h]
  · simp [h, natStrAux_eq n n le_rfl]

theorem digitsVal_foldl_acc (s : List Char) :
    ∀ a : Nat, s.foldl (fun x c => 10 * x + digitVal c) a = a * 10 ^ s.length + digitsVal s := by
  induction s with
  | nil => intro a; simp [digitsVal]
  | cons c s ih =>
    intro a
    simp only [List.foldl_cons, digitsVal, List.length_cons] at *
    rw [ih (10 * a + digitVal c), ih (10 * 0 + digitVal c)]
    ring

theorem digitsVal_cons (c : Char) (s : List Char) :
    digitsVal (c :: s) = digitVal c * 10 ^ s.length + digitsVal s := by
  show List.foldl _ 0 (c :: s) = _
  rw [List.foldl_cons, digitsVal_foldl_acc]
  ring_nf

theorem digitsVal_append (s t : List Char) :
    digitsVal (s ++ t) = digitsVal s * 10 ^ t.length + digitsVal t := by
  show List.foldl _ 0 (s ++ t) = _
  rw [List.foldl_append, digitsVal_foldl_acc]
  rfl

theorem digitsVal_concat (s : List Char) (c : Char) :
    digitsVal (s ++ [c]) = 10 * digitsVal s + digitVal c := by
  rw [digitsVal_append]
  have : digitsVal [c] = digitVal c := by simp [digitsVal]
  rw [this]
  simp only [List.length_cons, List.length_nil, Nat.zero_add, pow_one]
  ring

theorem digitsVal_reverse_map (l : List Nat) (h : ∀ d ∈ l, d < 10) :
    digitsVal ((l.map digitChar).reverse) = Nat.ofDigits 10 l := by
  induction l with
  | nil => simp [digitsVal]
  | cons d l ih =>
    simp only [List.map_cons, List.reverse_cons]
    rw [digitsVal_concat, ih (fun x hx => h x (by simp [hx])),
      digitVal_digitChar (h d (by simp)), Nat.ofDigits_cons]
    ring

theorem digitsVal_natStr (n : Nat) : digitsVal (natStr n) = n := by
  rw [natStr_eq]
  by_cases h : n = 0
  · simp [h, digitsVal, digitVal]
  · rw [if_neg h,
      digitsVal_reverse_map _ (fun d hd => Nat.digits_lt_base (by norm_num) hd),
      Nat.ofDigits_digits]

theorem natStr_ne_nil (n : Nat) : natStr n ≠ [] := by
  rw [natStr_eq]
  by_cases h : n = 0
  · simp [h]
  · simp [h, Nat.digits_ne_nil_iff_ne_zero.mpr h]

theorem natStr_isDigitC (n : Nat) : ∀ c ∈ natStr n, isDigitC c = true := by
  rw [natStr_eq]
  by_cases h : n = 0
  · simp [h]; decide
  · intro c hc
    rw [if_neg h] at hc
    simp only [List.mem_reverse, List.mem_map] at hc
    obtain ⟨d, hd, rfl⟩ := hc
    exact digitChar_isDigitC (Nat.digits_lt_base (by norm_num) hd)

theorem natStr_length_le {n k : Nat} (hk : 0 < k) (h : n < 10 ^ k) :
    (natStr n).length ≤ k := by
  rw [natStr_eq]
  by_cases h0 : n = 0
  · simpa [h0] using hk
  · rw [if_neg h0]
    simp only [List.length_reverse, List.length_map]
    by_contra hlt
    push_neg at hlt
    have hle := Nat.base_pow_length_digits_le 10 n (by norm_num) h0
    have h2 : 10 ^ (k + 1) ≤ 10 ^ (Nat.digits 10 n).length :=
      Nat.pow_le_pow_right (by norm_num) hlt
    have h3 : 10 * n < 10 * 10 ^ k := by omega
    have h4 : 10 * 10 ^ k = 10 ^ (k + 1) := by ring
    omega

theorem digitsVal_lt (s : List Char) (h : ∀ c ∈ s, isDigitC c = true) :
    digitsVal s < 10 ^ s.length := by
  induction s with
  | nil => simp [digitsVal]
  | cons c s ih =>
    rw [digitsVal_cons]
    have hv : digitVal c < 10 := digitVal_lt_ten (h c (by simp))
    have hs := ih (fun x hx => h x (by simp [hx]))
    have h9 : digitVal c * 10 ^ s.length ≤ 9 * 10 ^ s.length :=
      Nat.mul_le_mul_right _ (by omega)
    have hlen : 10 ^ (c :: s).length = 10 * 10 ^ s.length := by
      rw [List.length_cons]; ring
    omega

theorem eq_replicate_of_digitsVal_zero (s : List Char)
    (hd : ∀ c ∈ s, isDigitC c = true) (h : digitsVal s = 0) :
    s = List.replicate s.length '0' := by
  induction s using List.reverseRecOn with
  | nil => simp
  | append_singleton s c ih =>
    rw [digitsVal_concat] at h
    have hc : isDigitC c = true := hd c (by simp)
    have h2 : digitsVal s = 0 ∧ digitVal c = 0 := by omega
    have hc0 : c = '0' := by
      have hcc := digitChar_digitVal hc
      rw [h2.2] at hcc
      exact hcc.symm
    subst hc0
    rw [ih (fun x hx => hd x (by simp [hx])) h2.1]
    simp [List.replicate_succ']

theorem natStr_of_lt_ten {d : Nat} (hd : d < 10) :
    natStr d = [digitChar d] ∨ (d = 0 ∧ natStr d = ['0']) := by
  by_cases h0 : d = 0
  · exact Or.inr ⟨h0, by rw [h0]; rfl⟩
  · left
    rw [natStr_eq, if_neg h0,
      Nat.digits_def' (by norm_num : 1 < 10) (Nat.pos_of_ne_zero h0),
      Nat.mod_eq_of_lt hd, Nat.div_eq_of_lt hd]
    simp

theorem natStr_mul_add {m d : Nat} (hm : 0 < m) (hd : d < 10) :
    natStr (10 * m + d) = natStr m ++ [digitChar d] := by
  have hpos : 0 < 10 * m + d := by omega
  rw [natStr_eq, if_neg (by omega),
    Nat.digits_def' (by norm_num : 1 < 10) hpos]
  have hmod : (10 * m + d) % 10 = d := by omega
  have hdiv : (10 * m + d) / 10 = m := by omega
  rw [hmod, hdiv, natStr_eq, if_neg (by omega)]
  simp

theorem padZeros_natStr_digitsVal :
    ∀ s : List Char, s ≠ [] → (∀ c ∈ s, isDigitC c = true) →
      padZeros s.length (natStr (digitsVal s)) = s := by
  intro s
  induction s using List.reverseRecOn with
  | nil => intro hne _; exact absurd rfl hne
  | append_singleton s c ih =>
    intro _ hd
    have hc : isDigitC c = true := hd c (by simp)
    have hcv : digitVal c < 10 := digitVal_lt_ten hc
    rw [digitsVal_concat]
    by_cases hm : digitsVal s = 0
    · have hs0 : s = List.replicate s.length '0' :=
        eq_replicate_of_digitsVal_zero s (fun x hx => hd x (by simp [hx])) hm
      rw [hm]
      have hval : 10 * 0 + digitVal c = digitVal c := by omega
      rw [hval]
      have hnat : natStr (digitVal c) = [c] := by
        rcases natStr_of_lt_ten hcv with hne1 | ⟨hd0, hne1⟩
        · rw [hne1, digitChar_digitVal hc]
        · rw [hne1]
          have hcc := digitChar_digitVal hc
          rw [hd0] at hcc
          rw [show ('0' : Char) = digitChar 0 from rfl, hcc]
      rw [hnat]
      show List.replicate ((s ++ [c]).length - 1) '0' ++ [c] = s ++ [c]
      rw [List.length_append]
      simp only [List.length_cons, List.length_nil, Nat.zero_add]
      have harith : s.length + 1 - 1 = s.length := by omega
      rw [harith]
      conv_rhs => rw [hs0]
    · have hsne : s ≠ [] := by
        rintro rfl
        simp [digitsVal] at hm
      rw [natStr_mul_add (Nat.pos_of_ne_zero hm) hcv, digitChar_digitVal hc]
      show List.replicate ((s ++ [c]).length - (natStr (digitsVal s) ++ [c]).length) '0' ++
          (natStr (digitsVal s) ++ [c]) = s ++ [c]
      rw [List.length_append, List.length_append]
      simp only [List.length_cons, List.length_nil, Nat.zero_add]
      have harith : s.length + 1 - ((natStr (digitsVal s)).length + 1) =
          s.length - (natStr (digitsVal s)).length := by omega
      rw [harith, ← List.append_assoc]
      have hpad := ih hsne (fun x hx => hd x (by simp [hx]))
      show padZeros s.length (natStr (digitsVal s)) ++ [c] = s ++ [c]
      rw [hpad]

theorem zfill_natStr (w n : Nat) : zfill w (natStr n) = padZeros w (natStr n) := by
  obtain ⟨c, rest, hc⟩ : ∃ c rest, natStr n = c :: rest := by
    cases h : natStr n with
    | nil => exact absurd h (natStr_ne_nil n)
    | cons c rest => exact ⟨c, rest, rfl⟩
  have hcd : isDigitC c = true := natStr_isDigitC n c (by rw [hc]; simp)
  obtain ⟨h1, h2⟩ := isDigitC_bounds hcd
  have hsign : ¬(c = '+' ∨ c = '-') := by
    rintro (rfl | rfl) <;> exact absurd h1 (by decide)
  rw [hc]
  show zfill w (c :: rest) = padZeros w (c :: rest)
  rw [zfill, if_neg hsign]
  show _ = List.replicate (w - (c :: rest).length) '0' ++ (c :: rest)
  rw [List.length_cons]

theorem digitsVal_padZeros (w : Nat) (s : List Char) :
    digitsVal (padZeros w s) = digitsVal s := by
  show digitsVal (List.replicate (w - s.length) '0' ++ s) = digitsVal s
  generalize w - s.length = k
  induction k with
  | zero => simp
  | succ k ih =>
    rw [List.replicate_succ, List.cons_append, digitsVal_cons]
    have h0 : digitVal '0' = 0 := rfl
    rw [h0, ih]
    simp

theorem padZeros_length (w : Nat) (s : List Char) :
    (padZeros w s).length = max w s.length := by
  show (List.replicate (w - s.length) '0' ++ s).length = max w s.length
  rw [List.length_append, List.length_replicate]
  omega

theorem padZeros_isDigitC (w : Nat) (s : List Char) (h : ∀ c ∈ s, isDigitC c = true) :
    ∀ c ∈ padZeros w s, isDigitC c = true := by
  intro c hc
  rcases List.mem_append.mp hc with hz | hs
  · rw [List.eq_of_mem_replicate hz]; decide
  · exact h c hs

theorem not_space_of_digit {c : Char} (h : isDigitC c = true) : isPySpace c = false := by
  obtain ⟨h1, h2⟩ := isDigitC_bounds h
  rcases hb : isPySpace c with _ | _
  · rfl
  · exfalso
    simp only [isPySpace, Bool.or_eq_true, decide_eq_true_eq] at hb
    rcases hb with ((((rfl | rfl) | rfl) | rfl) | rfl) | rfl <;>
      exact absurd h1 (by decide)

theorem dropWhile_eq_self_of_all {p : Char → Bool} :
    ∀ l : List Char, (∀ c ∈ l, p c = false) → l.dropWhile p = l
  | [], _ => rfl
  | c :: r, h => by simp [List.dropWhile_cons, h c (by simp)]

theorem parseUDigitsAux_digits :
    ∀ (s : List Char), (∀ c ∈ s, isDigitC c = true) → ∀ a : Nat,
      parseUDigitsAux a s = some (s.foldl (fun x c => 10 * x + digitVal c) a) := by
  intro s
  induction s with
  | nil => intro _ a; rfl
  | cons c s ih =>
    intro h a
    have hc : isDigitC c = true := h c (by simp)
    rw [parseUDigitsAux.eq_def]
    dsimp only
    rw [if_pos hc, List.foldl_cons]
    exact ih (fun x hx => h x (by simp [hx])) _

theorem pyIntParse_digits (s : List Char) (hne : s ≠ [])
    (h : ∀ c ∈ s, isDigitC c = true) :
    pyIntParse s = some (Int.ofNat (digitsVal s)) := by
  have hall : ∀ c ∈ s, isPySpace c = false := fun c hc => not_space_of_digit (h c hc)
  have h1 : s.dropWhile isPySpace = s := dropWhile_eq_self_of_all s hall
  have h2 : s.reverse.dropWhile isPySpace = s.reverse :=
    dropWhile_eq_self_of_all _ (by intro c hc; exact hall c (List.mem_reverse.mp hc))
  obtain ⟨c, rest, rfl⟩ : ∃ c rest, s = c :: rest := by
    cases s with
    | nil => exact absurd rfl hne
    | cons c rest => exact ⟨c, rest, rfl⟩
  have hcd : isDigitC c = true := h c (by simp)
  obtain ⟨hb1, hb2⟩ := isDigitC_bounds hcd
  have hplus : c ≠ '+' := by rintro rfl; exact absurd hb1 (by decide)
  have hminus : c ≠ '-' := by rintro rfl; exact absurd hb1 (by decide)
  unfold pyIntParse
  rw [h1, h2, List.reverse_reverse]
  show (if c = '+' then _ else if c = '-' then _ else
      (parseUDigits (c :: rest)).map Int.ofNat) = _
  rw [if_neg hplus, if_neg hminus, parseUDigits, if_pos hcd,
    parseUDigitsAux_digits rest (fun x hx => h x (by simp [hx]))]
  have hfold : digitsVal (c :: rest) =
      rest.foldl (fun x c => 10 * x + digitVal c) (digitVal c) := by
    show List.foldl _ 0 (c :: rest) = _
    rw [List.foldl_cons]
    norm_num
  rw [hfold]
  rfl

example : mesh_id_to_mesh_num "X018599" = .ok none := rfl

example : mesh_id_to_mesh_num "D12A4" = .error .valueError := rfl

example : mesh_id_to_mesh_num "C" = .error .valueError := rfl

example : mesh_id_to_mesh_num "" = .error .indexError := rfl

theorem intStr_ofNat (v : Nat) : intStr (Int.ofNat v) = natStr v := by
  unfold intStr
  rw [if_neg (by simp only [Int.ofNat_eq_coe]; omega)]
  rfl

theorem mesh_num_to_mesh_id_ofNat (v : Nat) (ic : Int) :
    mesh_num_to_mesh_id (Int.ofNat v) ic =
      ⟨(if ic ≠ 0 then 'C' else 'D') ::
        padZeros (if v < meshThreshold (if ic ≠ 0 then 'C' else 'D') then 6 else 9)
          (natStr v)⟩ := by
  unfold mesh_num_to_mesh_id
  dsimp only
  by_cases hic : ic ≠ 0
  · rw [if_pos hic, if_neg (by decide : ¬('C' : Char) = 'D'),
      show meshThreshold 'C' = 588418 from rfl]
    by_cases hv : v < 588418
    · rw [if_pos (show Int.ofNat v < 588418 by simp only [Int.ofNat_eq_coe]; omega),
        if_pos hv, intStr_ofNat, zfill_natStr]
    · rw [if_neg (show ¬Int.ofNat v < 588418 by simp only [Int.ofNat_eq_coe]; omega),
        if_neg hv, intStr_ofNat, zfill_natStr]
  · rw [if_neg hic, if_pos rfl, show meshThreshold 'D' = 66332 from rfl]
    by_cases hv : v < 66332
    · rw [if_pos (show Int.ofNat v < 66332 by simp only [Int.ofNat_eq_coe]; omega),
        if_pos hv, intStr_ofNat, zfill_natStr]
    · rw [if_neg (show ¬Int.ofNat v < 66332 by simp only [Int.ofNat_eq_coe]; omega),
        if_neg hv, intStr_ofNat, zfill_natStr]

/-- C6: for every MeSH identifier of the form prefix-plus-digits with prefix
`'C'` or `'D'` whose digit-width agrees with the padding-threshold rule
(6 digits below the per-prefix threshold, 9 digits at or above it),
decoding the encoded pair yields the identifier back; and for every
identifier starting with any other character, `mesh_id_to_mesh_num`
returns the absent result (`None`) rather than raising. -/
theorem mesh_codec_roundtrip_c6 :
    (∀ (c : Char) (ds : List Char),
        (c = 'C' ∨ c = 'D') → ds ≠ [] → (∀ d ∈ ds, isDigitC d = true) →
        ((digitsVal ds < meshThreshold c ∧ ds.length = 6) ∨
          (meshThreshold c ≤ digitsVal ds ∧ ds.length = 9)) →
        mesh_id_to_mesh_num ⟨c :: ds⟩ =
            .ok (some (Int.ofNat (digitsVal ds), if c = 'C' then 1 else 0)) ∧
          mesh_num_to_mesh_id (Int.ofNat (digitsVal ds)) (if c = 'C' then 1 else 0) =
            ⟨c :: ds⟩) ∧
      ∀ (s : String) (c : Char) (rest : List Char),
        s.data = c :: rest → c ≠ 'C' → c ≠ 'D' → mesh_id_to_mesh_num s = .ok none := by
  constructor
  · intro c ds hc hne hdig hw
    constructor
    · show mesh_id_to_mesh_num (String.mk (c :: ds)) = _
      unfold mesh_id_to_mesh_num
      dsimp only
      have hcd : ¬(c ≠ 'C' ∧ c ≠ 'D') := by rcases hc with rfl | rfl <;> simp
      rw [if_neg hcd, pyIntParse_digits ds hne hdig]
    · rw [mesh_num_to_mesh_id_ofNat]
      rcases hc with rfl | rfl
      · rw [show (if (if 'C' = 'C' then (1 : Int) else 0) ≠ 0 then 'C' else 'D') = 'C' by
          decide]
        rcases hw with ⟨hlt, hlen⟩ | ⟨hge, hlen⟩
        · rw [if_pos hlt, show (6 : Nat) = ds.length from hlen.symm,
            padZeros_natStr_digitsVal ds hne hdig]
        · rw [if_neg (by omega), show (9 : Nat) = ds.length from hlen.symm,
            padZeros_natStr_digitsVal ds hne hdig]
      · rw [show (if (if 'D' = 'C' then (1 : Int) else 0) ≠ 0 then 'C' else 'D') = 'D' by
          decide]
        rcases hw with ⟨hlt, hlen⟩ | ⟨hge, hlen⟩
        · rw [if_pos hlt, show (6 : Nat) = ds.length from hlen.symm,
            padZeros_natStr_digitsVal ds hne hdig]
        · rw [if_neg (by omega), show (9 : Nat) = ds.length from hlen.symm,
            padZeros_natStr_digitsVal ds hne hdig]
  · intro s c rest hdata hC hD
    unfold mesh_id_to_mesh_num
    rw [hdata]
    dsimp only
    rw [if_pos ⟨hC, hD⟩]

/-- Witness for C6 at the concrete identifier `D006332`. -/
theorem mesh_codec_roundtrip_c6_witness :
    mesh_id_to_mesh_num ⟨'D' :: "006332".data⟩ =
        .ok (some (Int.ofNat (digitsVal "006332".data), if 'D' = 'C' then 1 else 0)) ∧
      mesh_num_to_mesh_id (Int.ofNat (digitsVal "006332".data))
          (if 'D' = 'C' then 1 else 0) = ⟨'D' :: "006332".data⟩ :=
  mesh_codec_roundtrip_c6.1 'D' "006332".data (Or.inr rfl) (by decide) (by decide)
    (Or.inl (by constructor <;> decide))

/-- C7: `mesh_num_to_mesh_id` prepends `'D'` when `is_concept` is `0` and
`'C'` when it is `1`, and zero-pads the number to 6 digits below the
per-prefix threshold (66332 for descriptors, 588418 for concepts) and to
9 digits otherwise; in particular `mesh_num_to_mesh_id 66331 0 = "D066331"`
and `mesh_num_to_mesh_id 66332 0 = "D000066332"`. -/
theorem mesh_num_to_mesh_id_padding_c7 :
    mesh_num_to_mesh_id 66331 0 = "D066331" ∧
      mesh_num_to_mesh_id 66332 0 = "D000066332" ∧
      ∀ (n ic : Int), 0 ≤ n →
        ∃ ds : List Char,
          mesh_num_to_mesh_id n ic = ⟨(if ic ≠ 0 then 'C' else 'D') :: ds⟩ ∧
            (∀ c ∈ ds, isDigitC c = true) ∧
            digitsVal ds = n.toNat ∧
            ds.length =
              max (if n.toNat < meshThreshold (if ic ≠ 0 then 'C' else 'D') then 6 else 9)
                (natStr n.toNat).length := by
  refine ⟨by decide, by decide, ?_⟩
  intro n ic hn
  obtain ⟨v, rfl⟩ : ∃ v : Nat, n = Int.ofNat v :=
    ⟨n.toNat, by simp only [Int.ofNat_eq_coe]; omega⟩
  have htn : (Int.ofNat v).toNat = v := rfl
  rw [htn]
  exact ⟨padZeros (if v < meshThreshold (if ic ≠ 0 then 'C' else 'D') then 6 else 9)
      (natStr v),
    mesh_num_to_mesh_id_ofNat v ic,
    padZeros_isDigitC _ _ (natStr_isDigitC v),
    by rw [digitsVal_padZeros, digitsVal_natStr],
    by rw [padZeros_length]⟩

/-- Witness for C7 at the concrete input `(66331, 0)`. -/
theorem mesh_num_to_mesh_id_padding_c7_witness :
    ∃ ds : List Char,
      mesh_num_to_mesh_id 66331 0 = ⟨(if (0 : Int) ≠ 0 then 'C' else 'D') :: ds⟩ ∧
        (∀ c ∈ ds, isDigitC c = true) ∧
        digitsVal ds = (66331 : Int).toNat ∧
        ds.length =
          max (if (66331 : Int).toNat <
                meshThreshold (if (0 : Int) ≠ 0 then 'C' else 'D') then 6 else 9)
            (natStr (66331 : Int).toNat).length :=
  mesh_num_to_mesh_id_padding_c7.2.2 66331 0 (by decide)

/-- C10: `mesh_id_to_mesh_num` returns the absent result only for a wrong
leading character: a string starting with `'C'` or `'D'` whose remaining
characters do not parse as a decimal integer raises `ValueError`, and the
empty string raises `IndexError` before the prefix check. -/
theorem mesh_id_to_mesh_num_errors_c10 :
    (∀ (c : Char) (rest : List Char), (c = 'C' ∨ c = 'D') → pyIntParse rest = none →
        mesh_id_to_mesh_num ⟨c :: rest⟩ = .error .valueError) ∧
      mesh_id_to_mesh_num "" = .error .indexError := by
  constructor
  · intro c rest hc hp
    show mesh_id_to_mesh_num (String.mk (c :: rest)) = _
    unfold mesh_id_to_mesh_num
    dsimp only
    have hcd : ¬(c ≠ 'C' ∧ c ≠ 'D') := by rcases hc with rfl | rfl <;> simp
    rw [if_neg hcd, hp]
  · rfl

/-- Witness for C10 at the concrete inputs `"D12A4"` and `"C"`. -/
theorem mesh_id_to_mesh_num_errors_c10_witness :
    mesh_id_to_mesh_num ⟨'D' :: "12A4".data⟩ = .error .valueError ∧
      mesh_id_to_mesh_num ⟨'C' :: ([] : List Char)⟩ = .error .valueError :=
  ⟨mesh_id_to_mesh_num_errors_c10.1 'D' "12A4".data (Or.inr rfl) (by decide),
    mesh_id_to_mesh_num_errors_c10.1 'C' [] (Or.inl rfl) (by decide)⟩

theorem tokenMatch_iff_occursBounded (e p : List Char) :
    tokenMatch e p = true ↔ OccursBounded e p := by
  constructor
  · intro h
    simp only [tokenMatch, List.any_eq_true, List.mem_range, Nat.lt_succ_iff] at h
    obtain ⟨i, hi, hm⟩ := h
    simp only [matchTokenAt, Bool.and_eq_true, decide_eq_true_eq, Bool.or_eq_true,
      beq_iff_eq] at hm
    obtain ⟨⟨htake, hleft⟩, hright⟩ := hm
    refine ⟨p.take i, p.drop (i + e.length), ?_, ?_, ?_⟩
    · conv_lhs => rw [← List.take_append_drop i p]
      rw [List.append_assoc]
      congr 1
      conv_lhs => rw [← List.take_append_drop e.length (p.drop i)]
      rw [htake, List.drop_drop]
    · intro c hc
      rcases hleft with h0 | hnw
      · rw [h0] at hc
        simp at hc
      · have hi1 : 1 ≤ i := by
          rcases Nat.eq_zero_or_pos i with rfl | hp
          · rw [List.take_zero] at hc; simp at hc
          · exact hp
        rw [List.getLast?_eq_getElem?, List.length_take] at hc
        have hmin : min i p.length - 1 = i - 1 := by omega
        rw [hmin, List.getElem?_take_of_lt (by omega : i - 1 < i)] at hc
        unfold nonWordAt at hnw
        rw [hc] at hnw
        simpa using hnw
    · intro c hc
      rcases hright with hend | hnw
      · rw [List.head?_eq_getElem?, List.getElem?_drop, Nat.add_zero, hend] at hc
        simp at hc
      · unfold nonWordAt at hnw
        rw [List.head?_eq_getElem?, List.getElem?_drop, Nat.add_zero] at hc
        rw [hc] at hnw
        simpa using hnw
  · rintro ⟨pre, post, rfl, hL, hR⟩
    simp only [tokenMatch, List.any_eq_true, List.mem_range, Nat.lt_succ_iff]
    refine ⟨pre.length, by simp only [List.length_append]; omega, ?_⟩
    simp only [matchTokenAt, Bool.and_eq_true, decide_eq_true_eq, Bool.or_eq_true,
      beq_iff_eq]
    refine ⟨⟨?_, ?_⟩, ?_⟩
    · rw [List.append_assoc, List.drop_left, List.take_left]
    · rcases List.eq_nil_or_concat pre with rfl | ⟨pre', c, rfl⟩
      · left; rfl
      · right
        simp only [List.concat_eq_append] at hL ⊢
        have hc := hL c (List.getLast?_concat _)
        unfold nonWordAt
        have hidx : ((pre' ++ [c]) ++ e ++ post)[(pre' ++ [c]).length - 1]? = some c := by
          rw [List.append_assoc,
            List.getElem?_append_left
              (by simp only [List.length_append, List.length_cons, List.length_nil]; omega)]
          have hlen : (pre' ++ [c]).length - 1 = pre'.length := by
            simp only [List.length_append, List.length_cons, List.length_nil]
            omega
          rw [hlen, List.getElem?_concat_length]
        rw [hidx]
        dsimp only
        rw [hc]
        rfl
    · cases post with
      | nil =>
        left
        simp only [List.length_append, List.length_nil]
        omega
      | cons c post' =>
        right
        have hc := hR c rfl
        unfold nonWordAt
        have hidx : (pre ++ e ++ (c :: post'))[pre.length + e.length]? = some c := by
          rw [List.getElem?_append_right
              (by simp only [List.length_append]; omega),
            List.length_append]
          have hzero : pre.length + e.length - (pre.length + e.length) = 0 := by omega
          rw [hzero]
          simp
        rw [hidx]
        dsimp only
        rw [hc]
        rfl

/-- C4: `filter_paragraphs` retains exactly the paragraphs in which some
entry of `contains` occurs bounded on each side by a non-word character or
a string boundary, joins the survivors with newline separators and appends
a trailing newline; with `contains = None` all paragraphs are retained; in
particular the `INSR` example from the specification evaluates to
`"INSR is a gene.\n"`. -/
theorem filter_paragraphs_c4 :
    (∀ e p, tokenMatch e p = true ↔ OccursBounded e p) ∧
      (∀ ps es, es ≠ [] →
        filter_paragraphs ps (PyStrs.list es) =
          String.intercalate "\n"
            (ps.filter fun p => es.any fun e => tokenMatch e.data p.data) ++ "\n") ∧
      (∀ ps, filter_paragraphs ps PyStrs.none =
        String.intercalate "\n" ps ++ "\n") ∧
      filter_paragraphs ["INSR is a gene.", "Something else about ABC."]
          (PyStrs.list ["INSR"]) = "INSR is a gene.\n" := by
  refine ⟨tokenMatch_iff_occursBounded, ?_, fun ps => rfl, by decide⟩
  intro ps es hne
  unfold filter_paragraphs
  dsimp only
  rw [if_neg (by simpa using hne)]

/-- Witness for C4 at the specification's concrete example. -/
theorem filter_paragraphs_c4_witness :
    filter_paragraphs ["INSR is a gene.", "Something else about ABC."]
        (PyStrs.list ["INSR"]) =
      String.intercalate "\n"
        ((["INSR is a gene.", "Something else about ABC."]).filter
          fun p => (["INSR"]).any fun e => tokenMatch e.data p.data) ++ "\n" :=
  filter_paragraphs_c4.2.1 ["INSR is a gene.", "Something else about ABC."] ["INSR"]
    (by decide)

theorem process_of_processed (tc : TextContent) (c : PyStrs)
    (t : Option (List String)) (h : tc.processed = true) : tc.process c t = tc := by
  unfold TextContent.process
  rw [if_pos h]

theorem processed_process (tc : TextContent) (c : PyStrs) (t : Option (List String)) :
    (tc.process c t).processed = true := by
  unfold TextContent.process
  by_cases h : tc.processed = true
  · rw [if_pos h]; exact h
  · rw [if_neg h]

/-- C5: `TextContent.process` is a one-shot in-place transformation: the
first call filters and joins each requested bucket (dropping documents
whose joined text has length at most one) and clears the buckets of text
types not requested; every subsequent call, with the same or different
arguments, leaves all four fields exactly as the first call left them. -/
theorem textContent_process_one_shot_c5 :
    (∀ (tc : TextContent) (c1 c2 : PyStrs) (t1 t2 : Option (List String)),
        (tc.process c1 t1).process c2 t2 = tc.process c1 t1) ∧
      ∀ (tc : TextContent) (c1 : PyStrs) (t1 : Option (List String)),
        tc.processed = false →
          (tc.process c1 t1).fulltexts =
              (if "fulltext" ∈ t1.getD ["fulltext", "abstract", "title"]
                then processBucket c1 tc.fulltexts else []) ∧
            (tc.process c1 t1).abstracts =
              (if "abstract" ∈ t1.getD ["fulltext", "abstract", "title"]
                then processBucket c1 tc.abstracts else []) ∧
            (tc.process c1 t1).titles =
              (if "title" ∈ t1.getD ["fulltext", "abstract", "title"]
                then processBucket c1 tc.titles else []) ∧
            (tc.process c1 t1).processed = true := by
  constructor
  · intro tc c1 c2 t1 t2
    exact process_of_processed _ _ _ (processed_process tc c1 t1)
  · intro tc c1 t1 h
    unfold TextContent.process
    rw [if_neg (by rw [h]; exact Bool.false_ne_true)]
    exact ⟨rfl, rfl, rfl, rfl⟩

/-- Witness for C5 at a concrete unprocessed `TextContent`. -/
theorem textContent_process_one_shot_c5_witness :
    (TextContent.process ⟨[(1, PyContent.paras ["ab"])], [], [], false⟩
          PyStrs.none Option.none).fulltexts =
        (if "fulltext" ∈ (Option.none).getD ["fulltext", "abstract", "title"]
          then processBucket PyStrs.none [(1, PyContent.paras ["ab"])] else []) ∧
      (TextContent.process ⟨[(1, PyContent.paras ["ab"])], [], [], false⟩
          PyStrs.none Option.none).abstracts =
        (if "abstract" ∈ (Option.none).getD ["fulltext", "abstract", "title"]
          then processBucket PyStrs.none [] else []) ∧
      (TextContent.process ⟨[(1, PyContent.paras ["ab"])], [], [], false⟩
          PyStrs.none Option.none).titles =
        (if "title" ∈ (Option.none).getD ["fulltext", "abstract", "title"]
          then processBucket PyStrs.none [] else []) ∧
      (TextContent.process ⟨[(1, PyContent.paras ["ab"])], [], [], false⟩
          PyStrs.none Option.none).processed = true :=
  textContent_process_one_shot_c5.2 ⟨[(1, PyContent.paras ["ab"])], [], [], false⟩
    PyStrs.none Option.none rfl

theorem chunksOf_flatten {n : Nat} (hn : 0 < n) :
    ∀ l : List α, (chunksOf n l).flatten = l := by
  have key : ∀ (k : Nat) (l : List α), l.length ≤ k → (chunksOf n l).flatten = l := by
    intro k
    induction k with
    | zero =>
      intro l hl
      have h0 : l = [] := List.eq_nil_of_length_eq_zero (by omega)
      subst h0
      rw [chunksOf]
      simp
    | succ k ih =>
      intro l hl
      by_cases h : l = []
      · subst h; rw [chunksOf]; simp
      · have hpos : 0 < l.length := List.length_pos.mpr h
        rw [chunksOf,
          if_neg (by
            simp only [Bool.or_eq_true, List.isEmpty_iff, beq_iff_eq, not_or]
            exact ⟨h, by omega⟩)]
        rw [List.flatten_cons,
          ih (l.drop n) (by simp only [List.length_drop]; omega)]
        exact List.take_append_drop n l
  exact fun l => key l.length l le_rfl

theorem chunksOf_length {n : Nat} (hn : 0 < n) :
    ∀ l : List α, (chunksOf n l).length = (l.length + n - 1) / n := by
  have key : ∀ (k : Nat) (l : List α), l.length ≤ k →
      (chunksOf n l).length = (l.length + n - 1) / n := by
    intro k
    induction k with
    | zero =>
      intro l hl
      have h0 : l = [] := List.eq_nil_of_length_eq_zero (by omega)
      subst h0
      rw [chunksOf]
      simp [Nat.div_eq_of_lt (by omega : n - 1 < n)]
    | succ k ih =>
      intro l hl
      by_cases h : l = []
      · subst h
        rw [chunksOf]
        simp [Nat.div_eq_of_lt (by omega : n - 1 < n)]
      · have hpos : 0 < l.length := List.length_pos.mpr h
        rw [chunksOf,
          if_neg (by
            simp only [Bool.or_eq_true, List.isEmpty_iff, beq_iff_eq, not_or]
            exact ⟨h, by omega⟩)]
        rw [List.length_cons, ih (l.drop n) (by simp only [List.length_drop]; omega)]
        simp only [List.length_drop]
        have heq : (l.length - n + n - 1) / n = (l.length - 1) / n := by
          by_cases hle : l.length ≤ n
          · have e1 : l.length - n + n - 1 = n - 1 := by omega
            have e2 : l.length - 1 < n := by omega
            rw [e1, Nat.div_eq_of_lt (by omega : n - 1 < n), Nat.div_eq_of_lt e2]
          · have e1 : l.length - n + n - 1 = l.length - 1 := by omega
            rw [e1]
        rw [heq]
        have e2 : l.length + n - 1 = (l.length - 1) + n := by omega
        rw [e2, Nat.add_div_right _ hn]
  exact fun l => key l.length l le_rfl

theorem mem_chunksOf_iff {n : Nat} (hn : 0 < n) (l : List α) (a : α) :
    (∃ c ∈ chunksOf n l, a ∈ c) ↔ a ∈ l := by
  conv_rhs => rw [← chunksOf_flatten hn l]
  rw [List.mem_flatten]

theorem dictUpdate_apply (kvs : List (Int × Int)) :
    ∀ (d : Int → Option Int) (k : Int),
      dictUpdate d kvs k =
        ((kvs.reverse.find? fun kv => kv.1 == k).map Prod.snd).or (d k) := by
  induction kvs with
  | nil => intro d k; rfl
  | cons kv rest ih =>
    intro d k
    show dictUpdate (fun k => if k = kv.1 then some kv.2 else d k) rest k = _
    rw [ih]
    simp only [List.reverse_cons, List.find?_append]
    cases hfind : rest.reverse.find? fun kv => kv.1 == k with
    | some kv' => simp
    | none =>
      by_cases hk : kv.1 = k
      · simp [List.find?_singleton, hk]
      · have hk' : ¬k = kv.1 := fun h => hk h.symm
        simp [List.find?_singleton, hk, hk']

theorem dictUpdate_append (d : Int → Option Int) (xs ys : List (Int × Int)) :
    dictUpdate d (xs ++ ys) = dictUpdate (dictUpdate d xs) ys := by
  unfold dictUpdate
  rw [List.foldl_append]

theorem find?_reverse_pmid_helper (table : List PmidTextRefRow)
    (pmids : List Int) (k : Int) :
    ((text_ref_ids_for_pmids_helper table pmids).reverse.find? fun kv => kv.1 == k) =
      if k ∈ pmids then
        (table.reverse.find? fun r => r.pmid == some k).map fun r => (k, r.text_ref_id)
      else none := by
  unfold text_ref_ids_for_pmids_helper
  rw [← List.filterMap_reverse]
  generalize table.reverse = l
  induction l with
  | nil => by_cases h : k ∈ pmids <;> simp [h]
  | cons r l ih =>
    rw [List.filterMap_cons]
    cases hp : r.pmid with
    | none =>
      rw [List.find?_cons_of_neg _ (by simp [hp])]
      exact ih
    | some p =>
      dsimp only
      by_cases hmem : p ∈ pmids
      · by_cases hk : p = k
        · subst hk
          rw [if_pos hmem]
          dsimp only
          rw [List.find?_cons_of_pos _ (by simp),
            List.find?_cons_of_pos _ (by simp [hp]),
            Option.map_some', if_pos hmem]
        · rw [if_pos hmem]
          dsimp only
          rw [List.find?_cons_of_neg _ (by simp [hk]),
            List.find?_cons_of_neg _ (by simp [hp, hk])]
          exact ih
      · by_cases hk : p = k
        · subst hk
          rw [if_neg hmem]
          dsimp only
          rw [ih, if_neg hmem, if_neg hmem]
        · rw [if_neg hmem]
          dsimp only
          rw [ih]
          by_cases hkp : k ∈ pmids
          · rw [if_pos hkp, if_pos hkp,
              List.find?_cons_of_neg _ (by simp [hp, hk])]
          · rw [if_neg hkp, if_neg hkp]

theorem get_text_ref_ids_chunked_eq (table : List PmidTextRefRow)
    (pmids : List Int) (k : Int) :
    get_text_ref_ids_for_pmids table pmids k =
      dictUpdate (fun _ => none) (text_ref_ids_for_pmids_helper table pmids) k := by
  have fold_eq : ∀ (chunks : List (List Int)) (d : Int → Option Int),
      chunks.foldl
          (fun result chunk =>
            dictUpdate result (text_ref_ids_for_pmids_helper table chunk)) d =
        dictUpdate d ((chunks.map (text_ref_ids_for_pmids_helper table)).flatten) := by
    intro chunks
    induction chunks with
    | nil => intro d; rfl
    | cons c rest ih =>
      intro d
      rw [List.foldl_cons, ih, List.map_cons, List.flatten_cons, dictUpdate_append]
  unfold get_text_ref_ids_for_pmids
  rw [fold_eq, dictUpdate_apply, dictUpdate_apply]
  have hmain : ∀ chunks : List (List Int),
      ((chunks.map (text_ref_ids_for_pmids_helper table)).flatten.reverse.find?
          fun kv => kv.1 == k) =
        if ∃ c ∈ chunks, k ∈ c then
          (table.reverse.find? fun r => r.pmid == some k).map fun r => (k, r.text_ref_id)
        else none := by
    intro chunks
    induction chunks with
    | nil => simp
    | cons c rest ih =>
      rw [List.map_cons, List.flatten_cons, List.reverse_append, List.find?_append, ih,
        find?_reverse_pmid_helper]
      have hcons : (∃ x ∈ c :: rest, k ∈ x) ↔ (∃ x ∈ rest, k ∈ x) ∨ k ∈ c := by
        constructor
        · rintro ⟨x, hx, hk⟩
          rcases List.mem_cons.mp hx with rfl | hx'
          · exact Or.inr hk
          · exact Or.inl ⟨x, hx', hk⟩
        · rintro (⟨x, hx, hk⟩ | hk)
          · exact ⟨x, List.mem_cons_of_mem c hx, hk⟩
          · exact ⟨c, List.mem_cons_self c rest, hk⟩
      by_cases h1 : ∃ x ∈ rest, k ∈ x <;> by_cases h2 : k ∈ c
      · rw [if_pos h1, if_pos h2, if_pos (hcons.mpr (Or.inl h1))]
        cases hv : (table.reverse.find? fun r => r.pmid == some k).map
            fun r => (k, r.text_ref_id) with
        | none => rfl
        | some v => rfl
      · rw [if_pos h1, if_neg h2, if_pos (hcons.mpr (Or.inl h1)), Option.or_none]
      · rw [if_neg h1, if_pos h2, if_pos (hcons.mpr (Or.inr h2)), Option.none_or]
      · rw [if_neg h1, if_neg h2,
          if_neg (fun hx => (hcons.mp hx).elim (fun a => h1 a) (fun b => h2 b)),
          Option.none_or]
  rw [hmain, find?_reverse_pmid_helper]
  simp only [mem_chunksOf_iff (show (0 : Nat) < 100000 by norm_num)]

theorem mem_paragraphs_helper (table : List BestContentRow) (ids : List Int)
    (x : Int × String × String) :
    x ∈ paragraphs_for_text_ref_ids_helper table ids ↔
      ∃ r ∈ table, r.text_ref_id ∈ ids ∧
        x = (r.text_ref_id, r.text_type, r.content) := by
  unfold paragraphs_for_text_ref_ids_helper
  rw [List.mem_filterMap]
  constructor
  · rintro ⟨r, hr, hfr⟩
    by_cases hmem : r.text_ref_id ∈ ids
    · rw [if_pos hmem] at hfr
      exact ⟨r, hr, hmem, (Option.some_inj.mp hfr).symm⟩
    · rw [if_neg hmem] at hfr
      exact absurd hfr (by simp)
  · rintro ⟨r, hr, hmem, rfl⟩
    exact ⟨r, hr, by rw [if_pos hmem]⟩

theorem get_paragraphs_rows_chunked_eq (table : List BestContentRow)
    (ids : List Int) (x : Int × String × String) :
    x ∈ get_paragraphs_for_text_ref_ids_rows table ids ↔
      x ∈ paragraphs_for_text_ref_ids_helper table ids := by
  have fold_eq : ∀ (chunks : List (List Int)) (acc : List (Int × String × String)),
      chunks.foldl
          (fun rows chunk => rows ++ paragraphs_for_text_ref_ids_helper table chunk)
          acc =
        acc ++ (chunks.map (paragraphs_for_text_ref_ids_helper table)).flatten := by
    intro chunks
    induction chunks with
    | nil => intro acc; simp
    | cons c rest ih =>
      intro acc
      rw [List.foldl_cons, ih, List.map_cons, List.flatten_cons, List.append_assoc]
  unfold get_paragraphs_for_text_ref_ids_rows
  rw [fold_eq]
  simp only [List.nil_append, List.mem_flatten, List.mem_map]
  constructor
  · rintro ⟨rows, ⟨c, hc, rfl⟩, hx⟩
    rw [mem_paragraphs_helper] at hx
    rcases hx with ⟨r, hr, hmem, rfl⟩
    rw [mem_paragraphs_helper]
    exact ⟨r, hr,
      (mem_chunksOf_iff (show (0 : Nat) < 100000 by norm_num) ids r.text_ref_id).mp
        ⟨c, hc, hmem⟩, rfl⟩
  · intro hx
    rw [mem_paragraphs_helper] at hx
    rcases hx with ⟨r, hr, hmem, rfl⟩
    rcases (mem_chunksOf_iff (show (0 : Nat) < 100000 by norm_num) ids r.text_ref_id).mpr
      hmem with ⟨c, hc, hcm⟩
    refine ⟨paragraphs_for_text_ref_ids_helper table c, ⟨c, hc, rfl⟩, ?_⟩
    rw [mem_paragraphs_helper]
    exact ⟨r, hr, hcm, rfl⟩

/-- C8: the batch lookup functions partition the input ids into consecutive
chunks of 100,000, issue one query per chunk, and merge per-chunk results
(dict update for mapping results, list extension for row results); the
merged result equals the result of a single unchunked query (as a mapping
for `get_text_ref_ids_for_pmids`, as a row set for
`get_paragraphs_for_text_ref_ids`); ids with no match are simply absent
from the result; and an input of 250,000 ids yields exactly 3 (hence at
least 3) chunked queries. -/
theorem batch_lookup_chunking_c8 :
    (∀ (table : List PmidTextRefRow) (pmids : List Int) (k : Int),
        get_text_ref_ids_for_pmids table pmids k =
          dictUpdate (fun _ => none) (text_ref_ids_for_pmids_helper table pmids) k) ∧
      (∀ (table : List PmidTextRefRow) (pmids : List Int) (k : Int),
        k ∉ pmids → get_text_ref_ids_for_pmids table pmids k = none) ∧
      (∀ (table : List BestContentRow) (ids : List Int) (x : Int × String × String),
        x ∈ get_paragraphs_for_text_ref_ids_rows table ids ↔
          x ∈ paragraphs_for_text_ref_ids_helper table ids) ∧
      (∀ ids : List Int,
        (chunksOf 100000 ids).length = (ids.length + 100000 - 1) / 100000) ∧
      ∀ ids : List Int, ids.length = 250000 → (chunksOf 100000 ids).length = 3 := by
  refine ⟨get_text_ref_ids_chunked_eq, ?_, get_paragraphs_rows_chunked_eq,
    fun ids => chunksOf_length (by norm_num) ids, ?_⟩
  · intro table pmids k hk
    rw [get_text_ref_ids_chunked_eq, dictUpdate_apply, find?_reverse_pmid_helper,
      if_neg hk]
    rfl
  · intro ids hlen
    rw [chunksOf_length (by norm_num) ids, hlen]

/-- Witness for C8 at a concrete 250,000-element id list and a concrete
missing id. -/
theorem batch_lookup_chunking_c8_witness :
    (chunksOf 100000 (List.replicate 250000 (0 : Int))).length = 3 ∧
      get_text_ref_ids_for_pmids [] [7] 5 = none :=
  ⟨batch_lookup_chunking_c8.2.2.2.2 (List.replicate 250000 0)
      (List.length_replicate 250000 0),
    batch_lookup_chunking_c8.2.1 [] [7] 5 (by decide)⟩

example :
    best_content_pipeline (fun s => s) (fun s => [s])
      [⟨1, 5, "fulltext", "elsevier", "x"⟩, ⟨2, 5, "fulltext", "pmc_oa", "y"⟩] =
    [⟨5, 2, none, "fulltext", ["y"]⟩] := by decide

example :
    best_content_pipeline (fun s => s) (fun s => [s])
      [⟨1, 7, "abstract", "pubmed", "a"⟩, ⟨2, 7, "title", "pubmed", "t"⟩] =
    [⟨7, 1, some 2, "abstract", ["t", "a"]⟩] := by decide

example :
    best_content_pipeline (fun s => s) (fun s => [s])
      [⟨1, 7, "title", "pubmed", "t"⟩, ⟨2, 7, "abstract", "pubmed", "a"⟩] =
    [⟨7, 1, none, "title", ["t"]⟩] := by decide

example :
    best_content_pipeline (fun s => s) (fun s => [s])
      [⟨1, 7, "fulltext", "elsevier", "x"⟩, ⟨2, 7, "abstract", "pubmed", "a"⟩,
        ⟨3, 7, "title", "pubmed", "t"⟩] =
    [⟨7, 1, none, "fulltext", ["x"]⟩] := by decide

theorem hasFulltext_iff (t : List TCRow) (d : Nat) :
    hasFulltext t d = true ↔ ∃ r ∈ t, r.text_ref_id = d ∧ r.text_type = "fulltext" := by
  unfold hasFulltext
  simp

theorem mem_delete_content_iff (t : List TCRow) (r : TCRow) :
    r ∈ delete_content_for_which_fulltext_exists t ↔
      r ∈ t ∧ (hasFulltext t r.text_ref_id = false ∨
        (r.text_type ≠ "abstract" ∧ r.text_type ≠ "title")) := by
  unfold delete_content_for_which_fulltext_exists
  rw [List.mem_filter]
  apply and_congr_right
  intro _
  cases h : hasFulltext t r.text_ref_id <;> simp [h, not_or]

theorem mem_delete_duplicate_fulltexts_iff (t : List TCRow) (r : TCRow) :
    r ∈ delete_duplicate_fulltexts t ↔
      r ∈ t ∧ (r.text_type = "fulltext" →
        repId fulltextSourceRank t r.text_ref_id = some r.id) := by
  unfold delete_duplicate_fulltexts
  rw [List.mem_filter]
  apply and_congr_right
  intro _
  by_cases h : r.text_type = "fulltext" <;> simp [h]

theorem mem_delete_duplicate_abstracts_iff (t : List TCRow) (r : TCRow) :
    r ∈ delete_duplicate_abstracts t ↔
      r ∈ t ∧ (r.text_type = "abstract" →
        repId abstractSourceRank t r.text_ref_id = some r.id) := by
  unfold delete_duplicate_abstracts
  rw [List.mem_filter]
  apply and_congr_right
  intro _
  by_cases h : r.text_type = "abstract" <;> simp [h]

theorem mem_combine_iff (t : List TCRow) (a : AbsRow) :
    a ∈ combine_abstracts_with_titles t ↔
      ∃ tc1 ∈ t, ∃ tc2 ∈ t,
        tc1.text_type = "abstract" ∧ tc2.text_type = "title" ∧
          tc1.text_ref_id = tc2.text_ref_id ∧
          a = ⟨tc1.id, tc2.id, tc1.text_ref_id, tc1.text_type, tc1.source,
            tc2.content, tc1.content⟩ := by
  unfold combine_abstracts_with_titles
  rw [List.mem_flatMap]
  constructor
  · rintro ⟨tc1, h1, hmem⟩
    rw [List.mem_map] at hmem
    rcases hmem with ⟨tc2, h2, rfl⟩
    rw [List.mem_filter] at h2
    obtain ⟨h2t, h2c⟩ := h2
    simp only [Bool.and_eq_true, beq_iff_eq] at h2c
    exact ⟨tc1, h1, tc2, h2t, h2c.1.1, h2c.1.2, h2c.2, rfl⟩
  · rintro ⟨tc1, h1, tc2, h2, hab, hti, htr, rfl⟩
    refine ⟨tc1, h1, ?_⟩
    rw [List.mem_map]
    refine ⟨tc2, ?_, rfl⟩
    rw [List.mem_filter]
    refine ⟨h2, ?_⟩
    simp [hab, hti, htr]

theorem mem_delete_abstracts_iff (t : List TCRow) (r : TCRow) :
    r ∈ delete_abstracts t ↔ r ∈ t ∧ r.text_type ≠ "abstract" := by
  unfold delete_abstracts
  rw [List.mem_filter]
  simp

theorem mem_delete_titles_iff (t : List TCRow) (ab : List AbsRow) (r : TCRow) :
    r ∈ delete_titles_for_which_abstracts_exist t ab ↔
      r ∈ t ∧ ((∀ a ∈ ab, a.text_ref_id ≠ r.text_ref_id) ∨ r.text_type ≠ "title") := by
  unfold delete_titles_for_which_abstracts_exist
  rw [List.mem_filter]
  apply and_congr_right
  intro _
  by_cases h : r.text_type = "title" <;> simp [h]

theorem mem_abstracts_rows_iff (u : String → String) (ab : List AbsRow) (b : BCRow) :
    b ∈ abstracts_rows u ab ↔
      ∃ a ∈ ab, b = ⟨a.text_ref_id, a.tcid1, some a.tcid2, a.text_type,
        [u a.title, u a.abstract]⟩ := by
  unfold abstracts_rows
  rw [List.mem_map]
  constructor
  · rintro ⟨a, ha, rfl⟩; exact ⟨a, ha, rfl⟩
  · rintro ⟨a, ha, rfl⟩; exact ⟨a, ha, rfl⟩

theorem mem_fulltexts_and_titles_rows_iff (u : String → String)
    (e : String → List String) (t : List TCRow) (b : BCRow) :
    b ∈ fulltexts_and_titles_rows u e t ↔
      ∃ r ∈ t, b = ⟨r.text_ref_id, r.id, none, r.text_type, e (u r.content)⟩ := by
  unfold fulltexts_and_titles_rows
  rw [List.mem_map]
  constructor
  · rintro ⟨r, hr, rfl⟩; exact ⟨r, hr, rfl⟩
  · rintro ⟨r, hr, rfl⟩; exact ⟨r, hr, rfl⟩

theorem mem_groupOf_iff (t : List TCRow) (d : Nat) (r : TCRow) :
    r ∈ groupOf t d ↔ r ∈ t ∧ r.text_ref_id = d := by
  unfold groupOf
  rw [List.mem_filter]
  simp

theorem mem_pipeline_iff (u : String → String) (e : String → List String)
    (t : List TCRow) (b : BCRow) :
    b ∈ best_content_pipeline u e t ↔
      (b ∈ abstracts_rows u
        (combine_abstracts_with_titles
          (delete_duplicate_abstracts
            (delete_duplicate_fulltexts
              (delete_content_for_which_fulltext_exists t)))) ∨
      b ∈ fulltexts_and_titles_rows u e
        (delete_titles_for_which_abstracts_exist
          (delete_abstracts
            (delete_duplicate_abstracts
              (delete_duplicate_fulltexts
                (delete_content_for_which_fulltext_exists t))))
          (combine_abstracts_with_titles
            (delete_duplicate_abstracts
              (delete_duplicate_fulltexts
                (delete_content_for_which_fulltext_exists t)))))) := by
  unfold best_content_pipeline
  rw [List.mem_append]

theorem foldl_min_le_init (xs : List Nat) : ∀ x : Nat, xs.foldl min x ≤ x := by
  induction xs with
  | nil => intro x; exact le_rfl
  | cons y ys ih =>
    intro x
    rw [List.foldl_cons]
    exact le_trans (ih (min x y)) (min_le_left x y)

theorem foldl_min_le_mem (xs : List Nat) :
    ∀ (x y : Nat), y ∈ xs → xs.foldl min x ≤ y := by
  induction xs with
  | nil => intro x y h; exact absurd h (List.not_mem_nil y)
  | cons z zs ih =>
    intro x y h
    rw [List.foldl_cons]
    rcases List.mem_cons.mp h with rfl | h'
    · exact le_trans (foldl_min_le_init zs (min x y)) (min_le_right x y)
    · exact ih (min x z) y h'

theorem foldl_min_mem (xs : List Nat) :
    ∀ x : Nat, xs.foldl min x = x ∨ xs.foldl min x ∈ xs := by
  induction xs with
  | nil => intro x; exact Or.inl rfl
  | cons y ys ih =>
    intro x
    rw [List.foldl_cons]
    rcases ih (min x y) with h | h
    · rcases min_choice x y with hm | hm
      · exact Or.inl (h.trans hm)
      · rw [h, hm]
        exact Or.inr (List.mem_cons_self y ys)
    · exact Or.inr (List.mem_cons_of_mem y h)

theorem minRank_le (rank : String → Nat) (g : List TCRow) (r : TCRow) (hr : r ∈ g) :
    minRank rank g ≤ rank r.source := by
  unfold minRank
  cases hg : g.map fun r => rank r.source with
  | nil => simp at hg; subst hg; exact absurd hr (List.not_mem_nil r)
  | cons x xs =>
    have hmem : rank r.source ∈ g.map fun r => rank r.source :=
      List.mem_map_of_mem _ hr
    rw [hg] at hmem
    rcases List.mem_cons.mp hmem with h | h
    · exact h ▸ foldl_min_le_init xs x
    · exact foldl_min_le_mem xs x _ h

theorem minRank_attained (rank : String → Nat) (g : List TCRow) (hg : g ≠ []) :
    ∃ r ∈ g, rank r.source = minRank rank g := by
  cases hm : g.map fun r => rank r.source with
  | nil => rw [List.map_eq_nil_iff] at hm; exact absurd hm hg
  | cons x xs =>
    have hval : minRank rank g = xs.foldl min x := by
      unfold minRank
      rw [hm]
    rcases foldl_min_mem xs x with h | h
    · have hx : x ∈ g.map fun r => rank r.source := by
        rw [hm]; exact List.mem_cons_self x xs
      rw [List.mem_map] at hx
      rcases hx with ⟨r, hr, hrx⟩
      exact ⟨r, hr, by rw [hrx, hval, h]⟩
    · have hx : xs.foldl min x ∈ g.map fun r => rank r.source := by
        rw [hm]; exact List.mem_cons_of_mem x h
      rw [List.mem_map] at hx
      rcases hx with ⟨r, hr, hrx⟩
      exact ⟨r, hr, hrx.trans hval.symm⟩

theorem repId_spec (rank : String → Nat) (t : List TCRow) (d : Nat)
    (hne : groupOf t d ≠ []) :
    ∃ r, repId rank t d = some r.id ∧ r ∈ groupOf t d ∧
      rank r.source = minRank rank (groupOf t d) := by
  obtain ⟨r0, hr0, hrk⟩ := minRank_attained rank (groupOf t d) hne
  have hsome : ((groupOf t d).find? fun r =>
      rank r.source == minRank rank (groupOf t d)).isSome := by
    rw [List.find?_isSome]
    exact ⟨r0, hr0, by simp [hrk]⟩
  rcases ho : (groupOf t d).find? fun r =>
      rank r.source == minRank rank (groupOf t d) with _ | r
  · rw [ho] at hsome; simp at hsome
  · refine ⟨r, ?_, List.mem_of_find?_eq_some ho, ?_⟩
    · unfold repId
      rw [ho, Option.map_some']
    · have := List.find?_some ho
      simpa using this

theorem repId_unique_min (rank : String → Nat) (t : List TCRow) (d : Nat)
    (idInj : ∀ a ∈ t, ∀ b ∈ t, a.id = b.id → a = b) (m : TCRow)
    (hm : m ∈ groupOf t d)
    (hmin : ∀ r ∈ groupOf t d, r.id ≠ m.id → rank m.source < rank r.source) :
    repId rank t d = some m.id := by
  have hne : groupOf t d ≠ [] := fun h => absurd (h ▸ hm) (List.not_mem_nil m)
  obtain ⟨r, hrep, hrg, hrk⟩ := repId_spec rank t d hne
  have hrle : rank r.source ≤ rank m.source := hrk ▸ minRank_le rank _ m hm
  have hid : r.id = m.id := by
    by_contra hne2
    exact absurd hrle (not_le.mpr (hmin r hrg hne2))
  have hrm : r = m :=
    idInj r ((mem_groupOf_iff t d r).mp hrg).1 m ((mem_groupOf_iff t d m).mp hm).1 hid
  rw [hrep, hrm]

theorem groupOf_filter (p : TCRow → Bool) (t : List TCRow) (d : Nat)
    (hall : ∀ r ∈ groupOf t d, p r = true) :
    groupOf (t.filter p) d = groupOf t d := by
  unfold groupOf at *
  rw [List.filter_filter]
  have h1 : ∀ r ∈ t, ((r.text_ref_id == d) && p r) = (r.text_ref_id == d) := by
    intro r hr
    by_cases hd : r.text_ref_id = d
    · have := hall r (by rw [List.mem_filter]; exact ⟨hr, by simp [hd]⟩)
      simp [hd, this]
    · simp [hd]
  exact List.filter_congr h1

theorem t1_fulltext_only (t : List TCRow) (d : Nat)
    (hwt : ∀ r ∈ t, r.text_type = "fulltext" ∨ r.text_type = "abstract" ∨
      r.text_type = "title")
    (hft : hasFulltext t d = true) :
    ∀ r ∈ delete_content_for_which_fulltext_exists t, r.text_ref_id = d →
      r.text_type = "fulltext" := by
  intro r hr hd
  rw [mem_delete_content_iff] at hr
  rcases hr.2 with hfalse | hnot
  · rw [hd, hft] at hfalse
    exact Bool.noConfusion hfalse
  · rcases hwt r hr.1 with h | h | h
    · exact h
    · exact absurd h hnot.1
    · exact absurd h hnot.2

theorem mem_t1_of_fulltext (t : List TCRow) (r : TCRow) (hr : r ∈ t)
    (hty : r.text_type = "fulltext") :
    r ∈ delete_content_for_which_fulltext_exists t := by
  rw [mem_delete_content_iff]
  exact ⟨hr, Or.inr ⟨by rw [hty]; decide, by rw [hty]; decide⟩⟩

theorem mem_of_mem_delete_content {t : List TCRow} {r : TCRow}
    (h : r ∈ delete_content_for_which_fulltext_exists t) : r ∈ t :=
  ((mem_delete_content_iff t r).mp h).1

theorem mem_of_mem_delete_duplicate_fulltexts {t : List TCRow} {r : TCRow}
    (h : r ∈ delete_duplicate_fulltexts t) : r ∈ t :=
  ((mem_delete_duplicate_fulltexts_iff t r).mp h).1

theorem mem_of_mem_delete_duplicate_abstracts {t : List TCRow} {r : TCRow}
    (h : r ∈ delete_duplicate_abstracts t) : r ∈ t :=
  ((mem_delete_duplicate_abstracts_iff t r).mp h).1

theorem mem_of_mem_delete_abstracts {t : List TCRow} {r : TCRow}
    (h : r ∈ delete_abstracts t) : r ∈ t :=
  ((mem_delete_abstracts_iff t r).mp h).1

theorem mem_of_mem_delete_titles {t : List TCRow} {ab : List AbsRow} {r : TCRow}
    (h : r ∈ delete_titles_for_which_abstracts_exist t ab) : r ∈ t :=
  ((mem_delete_titles_iff t ab r).mp h).1

/-- C1: for every document with at least one fulltext candidate, the
pipeline emits a winning record with text_type `fulltext` for it, and
every record emitted for that document has text_type `fulltext`, no
matter how many abstract or title candidates coexist.  (The hypothesis
`hwt` is the data model: candidate text types are fulltext, abstract or
title.) -/
theorem best_content_fulltext_c1 (u : String → String) (e : String → List String)
    (t : List TCRow) (d : Nat)
    (hwt : ∀ r ∈ t, r.text_type = "fulltext" ∨ r.text_type = "abstract" ∨
      r.text_type = "title")
    (hft : ∃ r ∈ t, r.text_ref_id = d ∧ r.text_type = "fulltext") :
    (∃ b ∈ best_content_pipeline u e t, b.text_ref_id = d ∧
        b.text_type = "fulltext") ∧
      ∀ b ∈ best_content_pipeline u e t, b.text_ref_id = d →
        b.text_type = "fulltext" := by
  obtain ⟨w, hw, hwd, hwty⟩ := hft
  have hftb : hasFulltext t d = true := (hasFulltext_iff t d).mpr ⟨w, hw, hwd, hwty⟩
  have hT1ft := t1_fulltext_only t d hwt hftb
  have hwg : w ∈ groupOf (delete_content_for_which_fulltext_exists t) d := by
    rw [mem_groupOf_iff]
    exact ⟨mem_t1_of_fulltext t w hw hwty, hwd⟩
  have hgne : groupOf (delete_content_for_which_fulltext_exists t) d ≠ [] :=
    fun h => absurd (h ▸ hwg) (List.not_mem_nil w)
  obtain ⟨rstar, hrep, hrg, hrk⟩ := repId_spec fulltextSourceRank _ d hgne
  rw [mem_groupOf_iff] at hrg
  have hrty : rstar.text_type = "fulltext" := hT1ft rstar hrg.1 hrg.2
  have hne_ab : rstar.text_type ≠ "abstract" := by rw [hrty]; decide
  have hne_ti : rstar.text_type ≠ "title" := by rw [hrty]; decide
  have hrt2 : rstar ∈
      delete_duplicate_fulltexts (delete_content_for_which_fulltext_exists t) := by
    rw [mem_delete_duplicate_fulltexts_iff]
    exact ⟨hrg.1, fun _ => by rw [hrg.2]; exact hrep⟩
  have hrt3 : rstar ∈ delete_duplicate_abstracts
      (delete_duplicate_fulltexts (delete_content_for_which_fulltext_exists t)) := by
    rw [mem_delete_duplicate_abstracts_iff]
    exact ⟨hrt2, fun h => absurd h hne_ab⟩
  have hrt4 : rstar ∈ delete_abstracts (delete_duplicate_abstracts
      (delete_duplicate_fulltexts (delete_content_for_which_fulltext_exists t))) := by
    rw [mem_delete_abstracts_iff]
    exact ⟨hrt3, hne_ab⟩
  have hrt5 : rstar ∈ delete_titles_for_which_abstracts_exist
      (delete_abstracts (delete_duplicate_abstracts
        (delete_duplicate_fulltexts (delete_content_for_which_fulltext_exists t))))
      (combine_abstracts_with_titles (delete_duplicate_abstracts
        (delete_duplicate_fulltexts (delete_content_for_which_fulltext_exists t)))) := by
    rw [mem_delete_titles_iff]
    exact ⟨hrt4, Or.inr hne_ti⟩
  constructor
  · refine ⟨⟨rstar.text_ref_id, rstar.id, none, rstar.text_type, e (u rstar.content)⟩,
      ?_, hrg.2, hrty⟩
    rw [mem_pipeline_iff]
    right
    rw [mem_fulltexts_and_titles_rows_iff]
    exact ⟨rstar, hrt5, rfl⟩
  · intro b hb hbd
    rw [mem_pipeline_iff] at hb
    rcases hb with hb | hb
    · rw [mem_abstracts_rows_iff] at hb
      rcases hb with ⟨a, ha, rfl⟩
      rw [mem_combine_iff] at ha
      rcases ha with ⟨tc1, h1, tc2, h2, hab1, hti2, htr, rfl⟩
      have h1t1 : tc1 ∈ delete_content_for_which_fulltext_exists t :=
        mem_of_mem_delete_duplicate_fulltexts
          (mem_of_mem_delete_duplicate_abstracts h1)
      have hcontra : tc1.text_type = "fulltext" := hT1ft tc1 h1t1 hbd
      rw [hab1] at hcontra
      exact absurd hcontra (by decide)
    · rw [mem_fulltexts_and_titles_rows_iff] at hb
      rcases hb with ⟨r, hr5, rfl⟩
      have hrt1 : r ∈ delete_content_for_which_fulltext_exists t :=
        mem_of_mem_delete_duplicate_fulltexts
          (mem_of_mem_delete_duplicate_abstracts
            (mem_of_mem_delete_abstracts (mem_of_mem_delete_titles hr5)))
      exact hT1ft r hrt1 hbd

/-- Witness for C1 at a concrete table: document 5 has one fulltext and
one abstract candidate. -/
theorem best_content_fulltext_c1_witness :
    (∃ b ∈ best_content_pipeline (fun s => s) (fun s => [s])
        [⟨1, 5, "fulltext", "elsevier", "x"⟩, ⟨2, 5, "abstract", "pubmed", "y"⟩],
        b.text_ref_id = 5 ∧ b.text_type = "fulltext") ∧
      ∀ b ∈ best_content_pipeline (fun s => s) (fun s => [s])
          [⟨1, 5, "fulltext", "elsevier", "x"⟩, ⟨2, 5, "abstract", "pubmed", "y"⟩],
        b.text_ref_id = 5 → b.text_type = "fulltext" :=
  best_content_fulltext_c1 (fun s => s) (fun s => [s])
    [⟨1, 5, "fulltext", "elsevier", "x"⟩, ⟨2, 5, "abstract", "pubmed", "y"⟩] 5
    (by decide) (by decide)

/-- C3: for every document whose fulltext candidates have a strictly
minimal-rank candidate `m` under the source priority
pmc_oa < manuscripts < cord19_pmc_xml < elsevier < cord19_pdf < other,
the pipeline keeps exactly `m`: some record is emitted for the document
and every emitted record is the fulltext record derived from `m`.  The
concrete pmc_oa-versus-elsevier instance is the witness theorem. -/
theorem best_content_source_priority_c3 (u : String → String)
    (e : String → List String) (t : List TCRow) (d : Nat) (m : TCRow)
    (hwt : ∀ r ∈ t, r.text_type = "fulltext" ∨ r.text_type = "abstract" ∨
      r.text_type = "title")
    (hnodup : (t.map fun r => r.id).Nodup)
    (hm : m ∈ t) (hmd : m.text_ref_id = d) (hmf : m.text_type = "fulltext")
    (hmin : ∀ r ∈ t, r.text_ref_id = d → r.text_type = "fulltext" → r.id ≠ m.id →
      fulltextSourceRank m.source < fulltextSourceRank r.source) :
    (∃ b ∈ best_content_pipeline u e t, b.text_ref_id = d) ∧
      ∀ b ∈ best_content_pipeline u e t, b.text_ref_id = d →
        b.text_type = "fulltext" ∧ b.text_content_id1 = m.id := by
  have hftb : hasFulltext t d = true := (hasFulltext_iff t d).mpr ⟨m, hm, hmd, hmf⟩
  have hT1ft := t1_fulltext_only t d hwt hftb
  have idInjT : ∀ a ∈ t, ∀ b ∈ t, a.id = b.id → a = b :=
    fun a ha b hb h => List.inj_on_of_nodup_map hnodup ha hb h
  have hmt1 : m ∈ delete_content_for_which_fulltext_exists t :=
    mem_t1_of_fulltext t m hm hmf
  have hmg : m ∈ groupOf (delete_content_for_which_fulltext_exists t) d := by
    rw [mem_groupOf_iff]
    exact ⟨hmt1, hmd⟩
  have hrepm : repId fulltextSourceRank
      (delete_content_for_which_fulltext_exists t) d = some m.id := by
    apply repId_unique_min
    · exact fun a ha b hb h =>
        idInjT a (mem_of_mem_delete_content ha) b (mem_of_mem_delete_content hb) h
    · exact hmg
    · intro r hrg hrid
      rw [mem_groupOf_iff] at hrg
      exact hmin r (mem_of_mem_delete_content hrg.1) hrg.2 (hT1ft r hrg.1 hrg.2) hrid
  have hne_ab : m.text_type ≠ "abstract" := by rw [hmf]; decide
  have hne_ti : m.text_type ≠ "title" := by rw [hmf]; decide
  have hmt2 : m ∈
      delete_duplicate_fulltexts (delete_content_for_which_fulltext_exists t) := by
    rw [mem_delete_duplicate_fulltexts_iff]
    exact ⟨hmt1, fun _ => by rw [hmd]; exact hrepm⟩
  have hmt3 : m ∈ delete_duplicate_abstracts
      (delete_duplicate_fulltexts (delete_content_for_which_fulltext_exists t)) := by
    rw [mem_delete_duplicate_abstracts_iff]
    exact ⟨hmt2, fun h => absurd h hne_ab⟩
  have hmt4 : m ∈ delete_abstracts (delete_duplicate_abstracts
      (delete_duplicate_fulltexts (delete_content_for_which_fulltext_exists t))) := by
    rw [mem_delete_abstracts_iff]
    exact ⟨hmt3, hne_ab⟩
  have hmt5 : m ∈ delete_titles_for_which_abstracts_exist
      (delete_abstracts (delete_duplicate_abstracts
        (delete_duplicate_fulltexts (delete_content_for_which_fulltext_exists t))))
      (combine_abstracts_with_titles (delete_duplicate_abstracts
        (delete_duplicate_fulltexts (delete_content_for_which_fulltext_exists t)))) := by
    rw [mem_delete_titles_iff]
    exact ⟨hmt4, Or.inr hne_ti⟩
  constructor
  · refine ⟨⟨m.text_ref_id, m.id, none, m.text_type, e (u m.content)⟩, ?_, hmd⟩
    rw [mem_pipeline_iff]
    right
    rw [mem_fulltexts_and_titles_rows_iff]
    exact ⟨m, hmt5, rfl⟩
  · intro b hb hbd
    rw [mem_pipeline_iff] at hb
    rcases hb with hb | hb
    · rw [mem_abstracts_rows_iff] at hb
      rcases hb with ⟨a, ha, rfl⟩
      rw [mem_combine_iff] at ha
      rcases ha with ⟨tc1, h1, tc2, h2, hab1, hti2, htr, rfl⟩
      have h1t1 : tc1 ∈ delete_content_for_which_fulltext_exists t :=
        mem_of_mem_delete_duplicate_fulltexts
          (mem_of_mem_delete_duplicate_abstracts h1)
      have hcontra : tc1.text_type = "fulltext" := hT1ft tc1 h1t1 hbd
      rw [hab1] at hcontra
      exact absurd hcontra (by decide)
    · rw [mem_fulltexts_and_titles_rows_iff] at hb
      rcases hb with ⟨r, hr5, rfl⟩
      have hrt2 : r ∈
          delete_duplicate_fulltexts (delete_content_for_which_fulltext_exists t) :=
        mem_of_mem_delete_duplicate_abstracts
          (mem_of_mem_delete_abstracts (mem_of_mem_delete_titles hr5))
      have hrt1 : r ∈ delete_content_for_which_fulltext_exists t :=
        mem_of_mem_delete_duplicate_fulltexts hrt2
      have hrft : r.text_type = "fulltext" := hT1ft r hrt1 hbd
      have hrrep : repId fulltextSourceRank
          (delete_content_for_which_fulltext_exists t) r.text_ref_id = some r.id :=
        ((mem_delete_duplicate_fulltexts_iff _ r).mp hrt2).2 hrft
      have hbd' : r.text_ref_id = d := hbd
      rw [hbd', hrepm] at hrrep
      have hid : r.id = m.id := (Option.some_inj.mp hrrep).symm
      exact ⟨hrft, hid⟩

/-- Witness for C3 at the concrete table of the specification: one
elsevier fulltext and one pmc_oa fulltext for the same document; the
pmc_oa candidate (id 2) is the one kept. -/
theorem best_content_source_priority_c3_witness :
    (∃ b ∈ best_content_pipeline (fun s => s) (fun s => [s])
        [⟨1, 5, "fulltext", "elsevier", "x"⟩, ⟨2, 5, "fulltext", "pmc_oa", "y"⟩],
        b.text_ref_id = 5) ∧
      ∀ b ∈ best_content_pipeline (fun s => s) (fun s => [s])
          [⟨1, 5, "fulltext", "elsevier", "x"⟩, ⟨2, 5, "fulltext", "pmc_oa", "y"⟩],
        b.text_ref_id = 5 → b.text_type = "fulltext" ∧
          b.text_content_id1 = (⟨2, 5, "fulltext", "pmc_oa", "y"⟩ : TCRow).id :=
  best_content_source_priority_c3 (fun s => s) (fun s => [s])
    [⟨1, 5, "fulltext", "elsevier", "x"⟩, ⟨2, 5, "fulltext", "pmc_oa", "y"⟩] 5
    ⟨2, 5, "fulltext", "pmc_oa", "y"⟩
    (by decide) (by decide) (by decide) (by decide) (by decide) (by decide)

theorem groupOf_delete_content_of_no_fulltext (t : List TCRow) (d : Nat)
    (hnf : hasFulltext t d = false) :
    groupOf (delete_content_for_which_fulltext_exists t) d = groupOf t d := by
  unfold delete_content_for_which_fulltext_exists
  apply groupOf_filter
  intro r hr
  rw [mem_groupOf_iff] at hr
  rw [hr.2, hnf]
  rfl

theorem groupOf_delete_duplicate_fulltexts_of_no_ft (X : List TCRow) (d : Nat)
    (h : ∀ r ∈ groupOf X d, r.text_type ≠ "fulltext") :
    groupOf (delete_duplicate_fulltexts X) d = groupOf X d := by
  unfold delete_duplicate_fulltexts
  apply groupOf_filter
  intro r hr
  have hrf := h r hr
  simp [hrf]

/-- C2 (amended): for every document with at least one abstract and one
title candidate and no fulltext candidate, *provided that* the earliest
of the document's candidate rows attaining the minimal abstract-source
rank (pubmed < cord19_abstract < other, evaluated on every row of the
document including its titles) is an abstract `a`, the pipeline emits at
least one record for the document, and every emitted record is the
combination of `a` with one of the document's titles: content
`[title, abstract]`, text_type `abstract`, `text_content_id1` the
abstract id and `text_content_id2` a title id.  (Without the proviso the
claim fails: see the counterexample theorem.) -/
theorem best_content_title_abstract_c2_amended (u : String → String)
    (e : String → List String) (t : List TCRow) (d : Nat) (a : TCRow)
    (hwt : ∀ r ∈ t, r.text_type = "fulltext" ∨ r.text_type = "abstract" ∨
      r.text_type = "title")
    (hnodup : (t.map fun r => r.id).Nodup)
    (hnof : ∀ r ∈ t, r.text_ref_id = d → r.text_type ≠ "fulltext")
    (hti : ∃ r ∈ t, r.text_ref_id = d ∧ r.text_type = "title")
    (hrep : (groupOf t d).find? (fun r =>
        abstractSourceRank r.source ==
          minRank abstractSourceRank (groupOf t d)) = some a)
    (ha : a.text_type = "abstract") :
    (∃ b ∈ best_content_pipeline u e t, b.text_ref_id = d) ∧
      ∀ b ∈ best_content_pipeline u e t, b.text_ref_id = d →
        b.text_type = "abstract" ∧ b.text_content_id1 = a.id ∧
          ∃ tr ∈ t, tr.text_ref_id = d ∧ tr.text_type = "title" ∧
            b.text_content_id2 = some tr.id ∧
            b.content = [u tr.content, u a.content] := by
  have idInjT : ∀ x ∈ t, ∀ y ∈ t, x.id = y.id → x = y :=
    fun x hx y hy h => List.inj_on_of_nodup_map hnodup hx hy h
  have hnf : hasFulltext t d = false := by
    cases hh : hasFulltext t d
    · rfl
    · obtain ⟨r, hr, hrd, hrf⟩ := (hasFulltext_iff t d).mp hh
      exact absurd hrf (hnof r hr hrd)
  have hg1 : groupOf (delete_content_for_which_fulltext_exists t) d = groupOf t d :=
    groupOf_delete_content_of_no_fulltext t d hnf
  have hg2 : groupOf (delete_duplicate_fulltexts
      (delete_content_for_which_fulltext_exists t)) d = groupOf t d := by
    rw [groupOf_delete_duplicate_fulltexts_of_no_ft _ d, hg1]
    intro r hr
    rw [hg1, mem_groupOf_iff] at hr
    exact hnof r hr.1 hr.2
  have hag : a ∈ groupOf t d := List.mem_of_find?_eq_some hrep
  have hat : a ∈ t := ((mem_groupOf_iff t d a).mp hag).1
  have had : a.text_ref_id = d := ((mem_groupOf_iff t d a).mp hag).2
  have hrepa : repId abstractSourceRank (delete_duplicate_fulltexts
      (delete_content_for_which_fulltext_exists t)) d = some a.id := by
    unfold repId
    rw [hg2, hrep, Option.map_some']
  -- membership chain for the kept abstract
  have hat1 : a ∈ delete_content_for_which_fulltext_exists t := by
    rw [mem_delete_content_iff]
    exact ⟨hat, Or.inl (by rw [had]; exact hnf)⟩
  have hat2 : a ∈
      delete_duplicate_fulltexts (delete_content_for_which_fulltext_exists t) := by
    rw [mem_delete_duplicate_fulltexts_iff]
    exact ⟨hat1, fun h => absurd h (by rw [ha]; decide)⟩
  have hat3 : a ∈ delete_duplicate_abstracts (delete_duplicate_fulltexts
      (delete_content_for_which_fulltext_exists t)) := by
    rw [mem_delete_duplicate_abstracts_iff]
    exact ⟨hat2, fun _ => by rw [had]; exact hrepa⟩
  -- titles of the document survive to the third stage
  have htit3 : ∀ tr ∈ t, tr.text_ref_id = d → tr.text_type = "title" →
      tr ∈ delete_duplicate_abstracts (delete_duplicate_fulltexts
        (delete_content_for_which_fulltext_exists t)) := by
    intro tr htr htrd htrt
    have h1 : tr ∈ delete_content_for_which_fulltext_exists t := by
      rw [mem_delete_content_iff]
      exact ⟨htr, Or.inl (by rw [htrd]; exact hnf)⟩
    have h2 : tr ∈
        delete_duplicate_fulltexts (delete_content_for_which_fulltext_exists t) := by
      rw [mem_delete_duplicate_fulltexts_iff]
      exact ⟨h1, fun h => absurd h (by rw [htrt]; decide)⟩
    rw [mem_delete_duplicate_abstracts_iff]
    exact ⟨h2, fun h => absurd h (by rw [htrt]; decide)⟩
  -- the kept abstract is the only abstract of the document at stage three
  have habs_unique : ∀ r ∈ delete_duplicate_abstracts (delete_duplicate_fulltexts
      (delete_content_for_which_fulltext_exists t)), r.text_ref_id = d →
      r.text_type = "abstract" → r = a := by
    intro r hr hrd hrab
    have hrrep := ((mem_delete_duplicate_abstracts_iff _ r).mp hr).2 hrab
    rw [hrd, hrepa] at hrrep
    have hrt : r ∈ t :=
      mem_of_mem_delete_content (mem_of_mem_delete_duplicate_fulltexts
        (mem_of_mem_delete_duplicate_abstracts hr))
    exact idInjT r hrt a hat (Option.some_inj.mp hrrep).symm
  obtain ⟨tr0, htr0, htr0d, htr0t⟩ := hti
  have htr0t3 := htit3 tr0 htr0 htr0d htr0t
  -- the join table contains the pair (a, tr0)
  have hax : (⟨a.id, tr0.id, a.text_ref_id, a.text_type, a.source,
      tr0.content, a.content⟩ : AbsRow) ∈ combine_abstracts_with_titles
        (delete_duplicate_abstracts (delete_duplicate_fulltexts
          (delete_content_for_which_fulltext_exists t))) := by
    rw [mem_combine_iff]
    exact ⟨a, hat3, tr0, htr0t3, ha, htr0t, by rw [had, htr0d], rfl⟩
  constructor
  · refine ⟨⟨a.text_ref_id, a.id, some tr0.id, a.text_type,
      [u tr0.content, u a.content]⟩, ?_, had⟩
    rw [mem_pipeline_iff]
    left
    rw [mem_abstracts_rows_iff]
    exact ⟨_, hax, rfl⟩
  · intro b hb hbd
    rw [mem_pipeline_iff] at hb
    rcases hb with hb | hb
    · rw [mem_abstracts_rows_iff] at hb
      rcases hb with ⟨ax, haxm, rfl⟩
      rw [mem_combine_iff] at haxm
      rcases haxm with ⟨tc1, h1, tc2, h2, hab1, hti2, htr12, rfl⟩
      have hbd' : tc1.text_ref_id = d := hbd
      have htc1a : tc1 = a := habs_unique tc1 h1 hbd' hab1
      have htc2t : tc2 ∈ t :=
        mem_of_mem_delete_content (mem_of_mem_delete_duplicate_fulltexts
          (mem_of_mem_delete_duplicate_abstracts h2))
      refine ⟨by rw [show tc1.text_type = a.text_type from by rw [htc1a]]; exact ha,
        by rw [show tc1.id = a.id from by rw [htc1a]],
        tc2, htc2t, by rw [← htr12]; exact hbd', hti2, rfl, ?_⟩
      rw [show tc1.content = a.content from by rw [htc1a]]
    · rw [mem_fulltexts_and_titles_rows_iff] at hb
      rcases hb with ⟨r, hr5, rfl⟩
      have hbd' : r.text_ref_id = d := hbd
      have hr4 := ((mem_delete_titles_iff _ _ r).mp hr5)
      have hr3 := (mem_delete_abstracts_iff _ r).mp hr4.1
      have hrt : r ∈ t :=
        mem_of_mem_delete_content (mem_of_mem_delete_duplicate_fulltexts
          (mem_of_mem_delete_duplicate_abstracts hr3.1))
      exfalso
      rcases hwt r hrt with hty | hty | hty
      · exact hnof r hrt hbd' hty
      · exact hr3.2 hty
      · rcases hr4.2 with hnone | hnb
        · exact hnone _ hax (by rw [had, hbd'])
        · exact hnb hty

/-- Counterexample for C2 as originally stated: document 7 has one title
(source pubmed, first in table order) and one abstract (source pubmed);
the abstract-dedup step groups all of the document's rows, ranks both
rows equally, keeps the id of the first row — the title — and deletes
the abstract, so the emitted record has text_type `title` and is not the
title+abstract combination. -/
theorem best_content_title_abstract_c2_counterexample :
    (∃ r ∈ ([⟨1, 7, "title", "pubmed", "t"⟩,
        ⟨2, 7, "abstract", "pubmed", "a"⟩] : List TCRow),
      r.text_ref_id = 7 ∧ r.text_type = "abstract") ∧
    (∃ r ∈ ([⟨1, 7, "title", "pubmed", "t"⟩,
        ⟨2, 7, "abstract", "pubmed", "a"⟩] : List TCRow),
      r.text_ref_id = 7 ∧ r.text_type = "title") ∧
    (∀ r ∈ ([⟨1, 7, "title", "pubmed", "t"⟩,
        ⟨2, 7, "abstract", "pubmed", "a"⟩] : List TCRow),
      r.text_ref_id = 7 → r.text_type ≠ "fulltext") ∧
    (∃ b ∈ best_content_pipeline (fun s => s) (fun s => [s])
        [⟨1, 7, "title", "pubmed", "t"⟩, ⟨2, 7, "abstract", "pubmed", "a"⟩],
      b.text_ref_id = 7) ∧
    ∀ b ∈ best_content_pipeline (fun s => s) (fun s => [s])
        [⟨1, 7, "title", "pubmed", "t"⟩, ⟨2, 7, "abstract", "pubmed", "a"⟩],
      b.text_ref_id = 7 → b.text_type = "title" ∧ b.text_type ≠ "abstract" := by
  decide

/-- Witness for the amended C2 at a concrete table where the abstract row
precedes the title row. -/
theorem best_content_title_abstract_c2_witness :
    (∃ b ∈ best_content_pipeline (fun s => s) (fun s => [s])
        [⟨1, 7, "abstract", "pubmed", "a"⟩, ⟨2, 7, "title", "pubmed", "t"⟩],
      b.text_ref_id = 7) ∧
      ∀ b ∈ best_content_pipeline (fun s => s) (fun s => [s])
          [⟨1, 7, "abstract", "pubmed", "a"⟩, ⟨2, 7, "title", "pubmed", "t"⟩],
        b.text_ref_id = 7 →
          b.text_type = "abstract" ∧
            b.text_content_id1 = (⟨1, 7, "abstract", "pubmed", "a"⟩ : TCRow).id ∧
            ∃ tr ∈ ([⟨1, 7, "abstract", "pubmed", "a"⟩,
                ⟨2, 7, "title", "pubmed", "t"⟩] : List TCRow),
              tr.text_ref_id = 7 ∧ tr.text_type = "title" ∧
                b.text_content_id2 = some tr.id ∧
                b.content = [(fun s => s) tr.content,
                  (fun s => s) (⟨1, 7, "abstract", "pubmed", "a"⟩ : TCRow).content] :=
  best_content_title_abstract_c2_amended (fun s => s) (fun s => [s])
    [⟨1, 7, "abstract", "pubmed", "a"⟩, ⟨2, 7, "title", "pubmed", "t"⟩] 7
    ⟨1, 7, "abstract", "pubmed", "a"⟩
    (by decide) (by decide) (by decide) (by decide) (by decide) (by decide)

/-- Counterexample for C9 as stated: in the table-transfer step of store
assembly a missing table halts the step with an `AssertionError` instead
of the failure being logged and swallowed (while the agent-texts join
step does log and swallow it). -/
theorem build_precondition_c9_counterexample :
    move_table_check [] [] "best_content" = .assertionError ∧
      create_agent_texts_table_check [] = .proceeds true := by
  decide

/-- C9 (amended): the agent-texts join step logs a missing-table
assertion failure and proceeds past the check for every input, with the
failure logged exactly when some required table is missing; the
table-transfer step of store assembly instead halts with
`AssertionError` exactly when the table is missing from the source or
the destination database. -/
theorem build_precondition_c9_amended :
    (∀ all_tables : List String, ∃ logged : Bool,
        create_agent_texts_table_check all_tables = .proceeds logged ∧
          (logged = true ↔ ∃ nm ∈ agentTextsNeededTables, nm ∉ all_tables)) ∧
      ∀ (from_tables to_tables : List String) (table_name : String),
        move_table_check from_tables to_tables table_name = .assertionError ↔
          (table_name ∉ from_tables ∨ table_name ∉ to_tables) := by
  constructor
  · intro all_tables
    refine ⟨_, rfl, ?_⟩
    simp
  · intro ft tt nm
    unfold move_table_check
    by_cases h1 : nm ∈ ft <;> by_cases h2 : nm ∈ tt <;>
      simp [h1, h2]

end IndraDbLite
